import Mathlib

/-!
# Verification of the infer-server frame pipeline

Shallow embedding of the core components of the multi-stream inference
server (bounded MPMC queue, frame result aggregator, ring image cache,
stream decode loop, YOLO post-processor, stream manager and inference
worker control flow), with theorems settling the specification claims.

Machine `float` values are modelled by an abstract linear ordered field
(instantiated at `ℚ` for the decidable claims and at `ℝ` where the
source applies the transcendental `sigmoid`).  Stateful C++ objects are
modelled by explicit state-passing; every mutating member function
becomes a pure function from the old state (plus arguments) to the new
state (plus return value).  Concurrency is modelled by the sequential
interleavings the sources' locks enforce.
-/

namespace InferServer

/-! ## Bounded MPMC queue (`include/infer_server/common/bounded_queue.h`)

`BoundedQueue<T>` holds `capacity_`, `queue_`, `stopped_` and
`dropped_count_`; the mutex and condition variable only serialize the
operations, so the sequential model below captures the semantics. -/

structure BoundedQueue (α : Type) where
  capacity : ℕ
  queue : List α
  stopped : Bool
  dropped_count : ℕ
deriving Repr

/-- Constructor: `capacity_(capacity > 0 ? capacity : 1)`. -/
def BoundedQueue.mk0 (α : Type) (capacity : ℕ) : BoundedQueue α :=
  { capacity := if capacity > 0 then capacity else 1
    queue := []
    stopped := false
    dropped_count := 0 }

/-- `push`: on a stopped queue return `false` without inserting; if the
queue is full (`size >= capacity`) pop the head and bump
`dropped_count_`; then append the new item and return `true`. -/
def BoundedQueue.push (s : BoundedQueue α) (item : α) : Bool × BoundedQueue α :=
  if s.stopped then (false, s)
  else if s.queue.length ≥ s.capacity then
    (true, { s with queue := s.queue.drop 1 ++ [item],
                    dropped_count := s.dropped_count + 1 })
  else
    (true, { s with queue := s.queue ++ [item] })

/-- `try_pop` (also the value semantics of a `pop` that finds an item):
return the front element if any, else `none`. -/
def BoundedQueue.try_pop (s : BoundedQueue α) : Option α × BoundedQueue α :=
  match s.queue with
  | [] => (none, s)
  | x :: rest => (some x, { s with queue := rest })

def BoundedQueue.size (s : BoundedQueue α) : ℕ := s.queue.length

/-- Pop repeatedly (up to `fuel` times), collecting the returned items in
order; models a consumer draining the queue. -/
def BoundedQueue.drain : ℕ → BoundedQueue α → List α
  | 0, _ => []
  | fuel + 1, s =>
    match s.try_pop with
    | (none, _) => []
    | (some x, s2) => x :: BoundedQueue.drain fuel s2

/-- Push a whole list of items in order. -/
def BoundedQueue.pushAll (s : BoundedQueue α) (items : List α) : BoundedQueue α :=
  items.foldl (fun t item => (t.push item).2) s

/-! ## Frame result aggregator
(`include/infer_server/inference/frame_result_collector.h`) -/

structure BBox (α : Type) where
  x1 : α
  y1 : α
  x2 : α
  y2 : α
deriving Repr, DecidableEq

structure Detection (α : Type) where
  class_id : ℤ
  class_name : String
  confidence : α
  bbox : BBox α
deriving Repr, DecidableEq

structure ModelResult (α : Type) where
  task_name : String
  model_path : String
  inference_time_ms : α
  detections : List (Detection α)
deriving Repr, DecidableEq

structure FrameResult (α : Type) where
  cam_id : String
  rtsp_url : String
  frame_id : ℕ
  timestamp_ms : ℤ
  pts : ℤ
  original_width : ℤ
  original_height : ℤ
  results : List (ModelResult α)
deriving Repr, DecidableEq

/-- `FrameResultCollector`: total model count, the partially filled
frame result, and the completion counter (all updates happen under the
collector's mutex, so the state evolves sequentially). -/
structure FrameResultCollector (α : Type) where
  total_models : ℤ
  result : FrameResult α
  completed : ℤ
deriving Repr

def FrameResultCollector.mk0 (total_models : ℤ) (base : FrameResult α) :
    FrameResultCollector α :=
  { total_models := total_models, result := base, completed := 0 }

/-- `add_result`: append the model result to the list, bump the counter,
and return the full frame result exactly when the counter reaches
`total_models_`. -/
def FrameResultCollector.add_result (c : FrameResultCollector α)
    (mr : ModelResult α) : Option (FrameResult α) × FrameResultCollector α :=
  let r2 : FrameResult α := { c.result with results := c.result.results ++ [mr] }
  let comp := c.completed + 1
  ((if comp = c.total_models then some r2 else none),
    { c with result := r2, completed := comp })

/-- Run a sequence of `add_result` calls, collecting each call's return
value in order. -/
def FrameResultCollector.run (c : FrameResultCollector α) :
    List (ModelResult α) → List (Option (FrameResult α)) × FrameResultCollector α
  | [] => ([], c)
  | mr :: rest =>
    let step := c.add_result mr
    let tail := FrameResultCollector.run step.2 rest
    (step.1 :: tail.1, tail.2)

/-! ### Queue lemmas -/

theorem BoundedQueue.drain_aux (l : List α) :
    ∀ (s : BoundedQueue α) (n : ℕ), s.queue = l → l.length ≤ n →
      s.drain n = l := by
  induction l with
  | nil =>
    intro s n hq _
    cases n with
    | zero => simp [BoundedQueue.drain]
    | succ m => simp [BoundedQueue.drain, BoundedQueue.try_pop, hq]
  | cons x rest ih =>
    intro s n hq hlen
    cases n with
    | zero => simp at hlen
    | succ m =>
      have hlen2 : rest.length ≤ m := by simpa using hlen
      simp only [BoundedQueue.drain, BoundedQueue.try_pop, hq]
      exact congrArg (x :: ·) (ih { s with queue := rest } m rfl hlen2)

theorem BoundedQueue.drain_eq_queue (s : BoundedQueue α) (n : ℕ)
    (h : s.queue.length ≤ n) : s.drain n = s.queue :=
  BoundedQueue.drain_aux s.queue s n rfl h

/-! ### Collector lemmas -/

theorem FrameResultCollector.run_length (c : FrameResultCollector α)
    (rs : List (ModelResult α)) : (c.run rs).1.length = rs.length := by
  induction rs generalizing c with
  | nil => rfl
  | cons mr rest ih => simp [FrameResultCollector.run, ih]

theorem FrameResultCollector.run_getD_none (rs : List (ModelResult α)) :
    ∀ (c : FrameResultCollector α) (j : ℕ), j < rs.length →
      (c.completed + j + 1 : ℤ) ≠ c.total_models →
      (c.run rs).1.getD j none = none := by
  induction rs with
  | nil => intro c j hj _; exact absurd hj (by simp)
  | cons mr rest ih =>
    intro c j hj hne
    cases j with
    | zero =>
      have : (c.completed + 1 : ℤ) ≠ c.total_models := by
        simpa using hne
      simp [FrameResultCollector.run, FrameResultCollector.add_result, this]
    | succ j =>
      have hj2 : j < rest.length := by simpa using hj
      simp only [FrameResultCollector.run, List.getD_cons_succ]
      refine ih _ j hj2 ?_
      simp only [FrameResultCollector.add_result]
      push_cast at hne
      intro h
      exact hne (by linarith)

theorem FrameResultCollector.run_getD_some (rs : List (ModelResult α)) :
    ∀ (c : FrameResultCollector α) (j : ℕ), j < rs.length →
      (c.completed + j + 1 : ℤ) = c.total_models →
      ∃ fr : FrameResult α, (c.run rs).1.getD j none = some fr ∧
        fr.results.length = c.result.results.length + (j + 1) := by
  induction rs with
  | nil => intro c j hj _; exact absurd hj (by simp)
  | cons mr rest ih =>
    intro c j hj heq
    cases j with
    | zero =>
      have h0 : (c.completed + 1 : ℤ) = c.total_models := by simpa using heq
      refine ⟨{ c.result with results := c.result.results ++ [mr] }, ?_, ?_⟩
      · simp [FrameResultCollector.run, FrameResultCollector.add_result, h0]
      · simp
    | succ j =>
      have hj2 : j < rest.length := by simpa using hj
      have heq2 : ((c.add_result mr).2.completed + j + 1 : ℤ) =
          (c.add_result mr).2.total_models := by
        simp only [FrameResultCollector.add_result]
        push_cast at heq
        linarith
      obtain ⟨fr, hfr, hlen⟩ := ih (c.add_result mr).2 j hj2 heq2
      refine ⟨fr, ?_, ?_⟩
      · simpa [FrameResultCollector.run] using hfr
      · have : (c.add_result mr).2.result.results.length =
            c.result.results.length + 1 := by
          simp [FrameResultCollector.add_result]
        rw [hlen, this]
        omega

/-- C4: `push` on a full queue drops the current head and appends the new
item, incrementing `dropped_count`; `push` on a stopped queue fails
without inserting; pops return the remaining elements in FIFO order; and
with capacity 3, pushing 1,2,3,4,5 leaves size 3, dropped_count 2 and pop
order 3,4,5. -/
theorem c4_bounded_queue_drop_oldest :
    (∀ (s : BoundedQueue ℤ) (x : ℤ), s.stopped = true → s.push x = (false, s)) ∧
    (∀ (s : BoundedQueue ℤ) (x : ℤ), s.stopped = false →
        s.capacity ≤ s.queue.length →
        s.push x = (true, { s with queue := s.queue.drop 1 ++ [x],
                                   dropped_count := s.dropped_count + 1 })) ∧
    (∀ (s : BoundedQueue ℤ) (n : ℕ), s.queue.length ≤ n → s.drain n = s.queue) ∧
    (((BoundedQueue.mk0 ℤ 3).pushAll [1, 2, 3, 4, 5]).size = 3 ∧
      ((BoundedQueue.mk0 ℤ 3).pushAll [1, 2, 3, 4, 5]).dropped_count = 2 ∧
      ((BoundedQueue.mk0 ℤ 3).pushAll [1, 2, 3, 4, 5]).drain 5 = [3, 4, 5]) := by
  refine ⟨?_, ?_, ?_, ?_, ?_, ?_⟩
  · intro s x hs
    simp [BoundedQueue.push, hs]
  · intro s x hs hfull
    simp [BoundedQueue.push, hs, hfull]
  · intro s n h
    exact BoundedQueue.drain_eq_queue s n h
  · rfl
  · rfl
  · rfl

/-- Witness for C4 at concrete inputs. -/
theorem c4_bounded_queue_drop_oldest_witness :
    ((⟨2, [5, 6], true, 0⟩ : BoundedQueue ℤ).stopped = true ∧
      (⟨2, [5, 6], true, 0⟩ : BoundedQueue ℤ).push 7 =
        (false, ⟨2, [5, 6], true, 0⟩)) ∧
    ((⟨2, [5, 6], false, 0⟩ : BoundedQueue ℤ).stopped = false ∧
      (⟨2, [5, 6], false, 0⟩ : BoundedQueue ℤ).capacity ≤
        (⟨2, [5, 6], false, 0⟩ : BoundedQueue ℤ).queue.length ∧
      (⟨2, [5, 6], false, 0⟩ : BoundedQueue ℤ).push 7 =
        (true, ⟨2, [6, 7], false, 1⟩)) ∧
    ((⟨2, [5, 6], false, 0⟩ : BoundedQueue ℤ).queue.length ≤ 2 ∧
      (⟨2, [5, 6], false, 0⟩ : BoundedQueue ℤ).drain 2 = [5, 6]) := by
  refine ⟨⟨rfl, ?_⟩, ⟨rfl, by decide, ?_⟩, ⟨by decide, ?_⟩⟩
  · exact c4_bounded_queue_drop_oldest.1 _ 7 rfl
  · exact c4_bounded_queue_drop_oldest.2.1 _ 7 rfl (by decide)
  · exact c4_bounded_queue_drop_oldest.2.2.1 _ 2 (by decide)

/-- C10: the constructor clamps the requested capacity to at least 1
(`capacity > 0 ? capacity : 1`, i.e. `max c 1`), so a zero-capacity
request yields a usable queue: pushing onto a zero-requested-capacity
queue holding one element drops that element and succeeds. -/
theorem c10_zero_capacity_clamped :
    (∀ c : ℕ, (BoundedQueue.mk0 ℤ c).capacity = max c 1) ∧
    (∀ c : ℕ, 1 ≤ (BoundedQueue.mk0 ℤ c).capacity) ∧
    (∀ x y : ℤ,
      ((BoundedQueue.mk0 ℤ 0).push x).2.queue = [x] ∧
      ((BoundedQueue.mk0 ℤ 0).push x).2.push y =
        (true, ⟨1, [y], false, 1⟩)) := by
  have hcap : ∀ c : ℕ, (BoundedQueue.mk0 ℤ c).capacity = max c 1 := by
    intro c
    cases c with
    | zero => rfl
    | succ m => simp [BoundedQueue.mk0, Nat.max_eq_left (Nat.succ_le_succ (Nat.zero_le m))]
  refine ⟨hcap, fun c => ?_, fun x y => ⟨rfl, rfl⟩⟩
  rw [hcap c]
  exact le_max_right c 1

/-- C5: for a collector constructed with total `N ≥ 2` (and an empty base
result list) and any `N` `add_result` calls, every call before the last
returns `none`, and the `N`-th call returns the completed frame result
with exactly `N` entries. -/
theorem c5_collector_fires_exactly_once (N : ℕ) (hN : 2 ≤ N)
    (base : FrameResult ℚ) (hbase : base.results = [])
    (rs : List (ModelResult ℚ)) (hlen : rs.length = N) :
    (((FrameResultCollector.mk0 (N : ℤ) base).run rs).1.length = N) ∧
    (∀ j : ℕ, j + 1 < N →
      ((FrameResultCollector.mk0 (N : ℤ) base).run rs).1.getD j none = none) ∧
    (∃ fr : FrameResult ℚ,
      ((FrameResultCollector.mk0 (N : ℤ) base).run rs).1.getD (N - 1) none = some fr ∧
      fr.results.length = N) := by
  have hlen2 : ((FrameResultCollector.mk0 (N : ℤ) base).run rs).1.length = N := by
    rw [FrameResultCollector.run_length]; exact hlen
  refine ⟨hlen2, ?_, ?_⟩
  · intro j hj
    have hjlt : j < rs.length := by omega
    refine FrameResultCollector.run_getD_none rs _ j hjlt ?_
    simp only [FrameResultCollector.mk0]
    intro h
    have : j + 1 = N := by exact_mod_cast (by linarith : ((j : ℤ) + 1) = N)
    omega
  · have hN1 : N - 1 < rs.length := by omega
    have heq : ((FrameResultCollector.mk0 (N : ℤ) base).completed +
        (N - 1 : ℕ) + 1 : ℤ) = (FrameResultCollector.mk0 (N : ℤ) base).total_models := by
      simp only [FrameResultCollector.mk0]
      omega
    obtain ⟨fr, hfr, hflen⟩ :=
      FrameResultCollector.run_getD_some rs _ (N - 1) hN1 heq
    refine ⟨fr, hfr, ?_⟩
    rw [hflen]
    simp [FrameResultCollector.mk0, hbase]
    omega

/-- Witness for C5 with `N = 2` and two concrete model results. -/
theorem c5_collector_fires_exactly_once_witness :
    (2 ≤ 2 ∧
      (⟨"cam", "url", 1, 0, 0, 640, 480, []⟩ : FrameResult ℚ).results = [] ∧
      ([⟨"t1", "m1", 0, []⟩, ⟨"t2", "m2", 0, []⟩] : List (ModelResult ℚ)).length = 2) ∧
    ((((FrameResultCollector.mk0 ((2 : ℕ) : ℤ)
          (⟨"cam", "url", 1, 0, 0, 640, 480, []⟩ : FrameResult ℚ)).run
          ([⟨"t1", "m1", 0, []⟩, ⟨"t2", "m2", 0, []⟩] : List (ModelResult ℚ))).1.length = 2) ∧
      (∀ j : ℕ, j + 1 < 2 →
        ((FrameResultCollector.mk0 ((2 : ℕ) : ℤ)
          (⟨"cam", "url", 1, 0, 0, 640, 480, []⟩ : FrameResult ℚ)).run
          ([⟨"t1", "m1", 0, []⟩, ⟨"t2", "m2", 0, []⟩] : List (ModelResult ℚ))).1.getD j none = none) ∧
      (∃ fr : FrameResult ℚ,
        ((FrameResultCollector.mk0 ((2 : ℕ) : ℤ)
          (⟨"cam", "url", 1, 0, 0, 640, 480, []⟩ : FrameResult ℚ)).run
          ([⟨"t1", "m1", 0, []⟩, ⟨"t2", "m2", 0, []⟩] : List (ModelResult ℚ))).1.getD (2 - 1) none = some fr ∧
        fr.results.length = 2)) :=
  by
  have h := c5_collector_fires_exactly_once 2 (le_refl 2)
    (⟨"cam", "url", 1, 0, 0, 640, 480, []⟩ : FrameResult ℚ) rfl
    ([⟨"t1", "m1", 0, []⟩, ⟨"t2", "m2", 0, []⟩] : List (ModelResult ℚ)) rfl
  exact ⟨⟨le_refl 2, rfl, rfl⟩, h⟩

/-! ## Stream decode loop frame skipping
(`src/stream/stream_manager.cpp`, `StreamManager::decode_thread_func`)

`local_frame_count` is declared once per thread run, before the
reconnect loop, and is incremented at the top of every inner-loop
iteration: it is NOT reset when a session ends and a new one is opened
after a reconnect.  Each iteration computes
`need_process = (skip <= 1) || (local_frame_count % skip) == 0` and
takes the lightweight `skip_frame` path when it is false.  A negative
`frame_skip` behaves like `skip <= 1` (always process); the model uses
`ℕ` for `skip`, which covers all behaviours of the `int` in the source. -/

/-- `need_process` for the iteration whose counter value is
`local_frame_count`. -/
def need_process (skip : ℕ) (local_frame_count : ℕ) : Bool :=
  decide (skip ≤ 1) || (local_frame_count % skip == 0)

/-- The `need_process` flags of one session of `n` inner-loop
iterations, entered with counter value `c0` (frame `j` of the session
runs with counter `c0 + j + 1`). -/
def session_flags (skip c0 n : ℕ) : List Bool :=
  (List.range n).map (fun j => need_process skip (c0 + j + 1))

/-- Per-session `need_process` flags of a whole thread run, given the
iteration count of each successive decoder session; the counter carries
over from one session to the next. -/
def run_sessions (skip : ℕ) (c0 : ℕ) : List ℕ → List (List Bool)
  | [] => []
  | n :: rest => session_flags skip c0 n :: run_sessions skip (c0 + n) rest

theorem session_flags_succ (skip c0 n : ℕ) :
    session_flags skip c0 (n + 1) =
      session_flags skip c0 n ++ [need_process skip (c0 + n + 1)] := by
  simp [session_flags, List.range_succ]

theorem session_flags_count (skip c0 : ℕ) (h : 1 ≤ skip) (n : ℕ) :
    (session_flags skip c0 n).count true = (c0 + n) / skip - c0 / skip := by
  induction n with
  | zero => simp [session_flags]
  | succ n ih =>
    have hstep : c0 + (n + 1) = c0 + n + 1 := by omega
    rw [session_flags_succ, List.count_append, ih, hstep]
    have hdiv := Nat.succ_div (c0 + n) skip
    have hle : c0 / skip ≤ (c0 + n) / skip :=
      Nat.div_le_div_right (Nat.le_add_right c0 n)
    by_cases hd : skip ∣ (c0 + n + 1)
    · have hm : (c0 + n + 1) % skip = 0 := Nat.dvd_iff_mod_eq_zero.mp hd
      have hflag : need_process skip (c0 + n + 1) = true := by
        simp [need_process, hm]
      rw [hflag, if_pos hd] at *
      have hone : ([true] : List Bool).count true = 1 := rfl
      omega
    · have hm : (c0 + n + 1) % skip ≠ 0 := fun hz =>
        hd (Nat.dvd_iff_mod_eq_zero.mpr hz)
      have hsk : ¬ skip ≤ 1 := by
        intro hle1
        have h1 : skip = 1 := le_antisymm hle1 h
        exact hd (by rw [h1]; exact one_dvd _)
      have hflag : need_process skip (c0 + n + 1) = false := by
        simp [need_process, hsk, hm]
      rw [hflag, if_neg hd] at *
      have hzero : ([false] : List Bool).count true = 0 := rfl
      omega

theorem session_flags_getD (skip c0 n j : ℕ) (hj : j < n) (b : Bool) :
    (session_flags skip c0 n).getD j b = need_process skip (c0 + j + 1) := by
  have hlen : j < (session_flags skip c0 n).length := by
    simpa [session_flags] using hj
  rw [List.getD_eq_getElem _ _ hlen]
  simp [session_flags]

/-- C8 (amended): for `frame_skip = K ≥ 1`, in a session of `n` decoded
frames entered with counter value `c0`, the number of frames taking the
full processing path is `⌊n / K⌋` or `⌊n / K⌋ + 1` (within ±1 of
`⌊decoded / K⌋`), and frame `j` of the session takes the lightweight
skip path exactly when `K > 1` and the (not reset per session) global
counter value `c0 + j + 1` is not a multiple of `K`. -/
theorem c8_frame_skip_counting (skip c0 n : ℕ) (h : 1 ≤ skip) :
    ((session_flags skip c0 n).count true = n / skip ∨
      (session_flags skip c0 n).count true = n / skip + 1) ∧
    (∀ j : ℕ, j < n →
      ((session_flags skip c0 n).getD j true = false ↔
        1 < skip ∧ (c0 + j + 1) % skip ≠ 0)) := by
  constructor
  · rw [session_flags_count skip c0 h n]
    have hpos : 0 < skip := h
    have hsum := Nat.add_div (a := c0) (b := n) hpos
    have hle : c0 / skip ≤ (c0 + n) / skip :=
      Nat.div_le_div_right (Nat.le_add_right c0 n)
    by_cases hc : skip ≤ c0 % skip + n % skip
    · rw [if_pos hc] at hsum
      omega
    · rw [if_neg hc] at hsum
      omega
  · intro j hj
    rw [session_flags_getD skip c0 n j hj]
    simp only [need_process, Bool.or_eq_false_iff, decide_eq_false_iff_not,
      beq_eq_false_iff_ne, ne_eq, not_le]

/-- Witness for C8 at `K = 2`, `c0 = 0`, `n = 5`. -/
theorem c8_frame_skip_counting_witness :
    (1 ≤ 2) ∧
    (((session_flags 2 0 5).count true = 5 / 2 ∨
      (session_flags 2 0 5).count true = 5 / 2 + 1) ∧
    (∀ j : ℕ, j < 5 →
      ((session_flags 2 0 5).getD j true = false ↔
        1 < 2 ∧ (0 + j + 1) % 2 ≠ 0))) :=
  ⟨by decide, c8_frame_skip_counting 2 0 5 (by decide)⟩

/-- C8 counterexample: `local_frame_count` is not reset per session.
With `K = 2`, a first session consisting of a single iteration (its skip
attempt fails, ending the session with counter 1) is followed by a
second session whose first decoded frame has session index `i = 1` with
`i % K = 1 ≠ 0`; the claim says this frame takes the lightweight skip
path, but the code computes `need_process` from the carried-over counter
value 2 and takes the full path. -/
theorem c8_session_index_counterexample :
    run_sessions 2 0 [1, 1] = [[false], [true]] ∧ 1 % 2 ≠ 0 := by
  constructor
  · rfl
  · decide

/-! ## Model loading and stream creation
(`src/stream/stream_manager.cpp`, `StreamManager::add_stream`;
`src/inference/inference_engine.cpp`, `InferenceEngine::load_models`;
`src/inference/infer_worker.cpp`, `InferWorker::pre_create_context`)

The NPU driver's behaviour is abstracted by an environment telling
which model loads and context creations succeed. -/

structure ModelConfig where
  model_path : String
  task_name : String
  model_type : String
  input_width : ℤ
  input_height : ℤ
  conf_threshold : ℚ
  nms_threshold : ℚ
  labels_file : String
deriving Repr, DecidableEq

structure StreamConfig where
  cam_id : String
  rtsp_url : String
  frame_skip : ℤ
  models : List ModelConfig
deriving Repr, DecidableEq

/-- Driver environment: which `rknn_init` loads and which per-worker
context duplications succeed. -/
structure NpuEnv where
  load_ok : String → Bool
  ctx_ok : ℕ → String → Bool

/-- Engine-side state touched by `load_models`: the model manager's
loaded set and the per-(worker, model) contexts. -/
structure EngineModel where
  num_workers : ℕ
  loaded : List String
  contexts : List (ℕ × String)
deriving Repr, DecidableEq

def EngineModel.is_loaded (e : EngineModel) (path : String) : Bool :=
  e.loaded.contains path

/-- `InferWorker::pre_create_context`: reuse an existing handle, else ask
the registry to duplicate a context; on failure return `false` and leave
the handle set unchanged. -/
def EngineModel.pre_create_context (env : NpuEnv) (e : EngineModel)
    (worker : ℕ) (path : String) : Bool × EngineModel :=
  if e.contexts.contains (worker, path) then (true, e)
  else if env.ctx_ok worker path then
    (true, { e with contexts := e.contexts ++ [(worker, path)] })
  else (false, e)

/-- `InferenceEngine::load_models`: for each binding not yet loaded, load
the model (recording a failure in `all_ok` and continuing), then
pre-create every worker's context for it (again recording failures). -/
def EngineModel.load_models (env : NpuEnv) (e0 : EngineModel)
    (models : List ModelConfig) : Bool × EngineModel :=
  models.foldl (fun acc mc =>
    let all_ok := acc.1
    let e := acc.2
    if e.is_loaded mc.model_path then (all_ok, e)
    else if env.load_ok mc.model_path then
      let e2 := { e with loaded := e.loaded ++ [mc.model_path] }
      (List.range e.num_workers).foldl (fun acc2 w =>
        let r := EngineModel.pre_create_context env acc2.2 w mc.model_path
        (acc2.1 && r.1, r.2)) (all_ok, e2)
    else (false, e)) (true, e0)

/-- Per-stream pipeline context as far as `add_stream` initializes it
(`StreamState::Starting = 1`; `decode_thread` spawned). -/
structure StreamContext where
  config : StreamConfig
  thread_spawned : Bool
  running : Bool
  state : ℤ
deriving Repr, DecidableEq

structure ManagerModel where
  streams : List (String × StreamContext)
  engine : EngineModel
  cache_streams : List String
deriving Repr, DecidableEq

/-- `StreamManager::add_stream`: reject an empty or duplicate id;
otherwise call `engine_->load_models` (whose boolean result the source
discards), register the stream in the image cache, spawn the decode
thread and insert the context into the map, returning `true`. -/
def ManagerModel.add_stream (env : NpuEnv) (m : ManagerModel)
    (cfg : StreamConfig) : Bool × ManagerModel :=
  if cfg.cam_id = "" then (false, m)
  else if (m.streams.lookup cfg.cam_id).isSome then (false, m)
  else
    let lr := EngineModel.load_models env m.engine cfg.models
    let cache2 := if m.cache_streams.contains cfg.cam_id then m.cache_streams
      else m.cache_streams ++ [cfg.cam_id]
    (true, { streams := m.streams ++ [(cfg.cam_id, ⟨cfg, true, true, 1⟩)],
             engine := lr.2,
             cache_streams := cache2 })

theorem lookup_append_single {β : Type} (l : List (String × β)) (k : String)
    (v : β) (h : l.lookup k = none) : (l ++ [(k, v)]).lookup k = some v := by
  induction l with
  | nil => simp [List.lookup]
  | cons p rest ih =>
    rw [List.cons_append]
    by_cases hk : k == p.1
    · exfalso
      simp [List.lookup, hk] at h
    · simp only [List.lookup, hk]
      exact ih (by simpa [List.lookup, hk] using h)

/-- C2 counterexample: with a driver that fails every model load,
`add_stream` on a fresh manager still returns success, registers the
pipeline context in the map, and spawns the decode thread, even though
`load_models` reported failure. -/
theorem c2_load_failure_counterexample :
    (EngineModel.load_models ⟨fun _ => false, fun _ _ => false⟩ ⟨3, [], []⟩
      [⟨"model_a", "t", "yolov5", 640, 640, 1/2, 45/100, ""⟩]).1 = false ∧
    (ManagerModel.add_stream ⟨fun _ => false, fun _ _ => false⟩ ⟨[], ⟨3, [], []⟩, []⟩
      ⟨"cam1", "rtsp://x", 1, [⟨"model_a", "t", "yolov5", 640, 640, 1/2, 45/100, ""⟩]⟩).1
      = true ∧
    (ManagerModel.add_stream ⟨fun _ => false, fun _ _ => false⟩ ⟨[], ⟨3, [], []⟩, []⟩
      ⟨"cam1", "rtsp://x", 1, [⟨"model_a", "t", "yolov5", 640, 640, 1/2, 45/100, ""⟩]⟩).2.streams.lookup
      "cam1" =
      some ⟨⟨"cam1", "rtsp://x", 1, [⟨"model_a", "t", "yolov5", 640, 640, 1/2, 45/100, ""⟩]⟩,
        true, true, 1⟩ := by
  refine ⟨rfl, rfl, rfl⟩

/-- C2 (amended): `add_stream` fails only on an empty or duplicate id.
A model-load failure is ignored: `load_models` returns `false` but the
source discards that value, so the stream is still registered, its
decode thread spawned, and `add_stream` returns success. -/
theorem c2_add_stream_ignores_load_failure (env : NpuEnv) (m : ManagerModel)
    (cfg : StreamConfig) (hid : cfg.cam_id ≠ "")
    (hdup : m.streams.lookup cfg.cam_id = none) :
    (ManagerModel.add_stream env m cfg).1 = true ∧
    (ManagerModel.add_stream env m cfg).2.streams.lookup cfg.cam_id =
      some ⟨cfg, true, true, 1⟩ ∧
    (ManagerModel.add_stream env m cfg).2.engine =
      (EngineModel.load_models env m.engine cfg.models).2 := by
  have hdup2 : (m.streams.lookup cfg.cam_id).isSome = false := by
    rw [hdup]; rfl
  unfold ManagerModel.add_stream
  rw [if_neg hid, if_neg (by simp [hdup2])]
  exact ⟨rfl, lookup_append_single m.streams cfg.cam_id _ hdup, rfl⟩

/-- Witness for C2 at a concrete manager, stream and environment. -/
theorem c2_add_stream_ignores_load_failure_witness :
    (("cam9" : String) ≠ "" ∧
      (([] : List (String × StreamContext)).lookup "cam9" = none)) ∧
    ((ManagerModel.add_stream ⟨fun _ => true, fun _ _ => true⟩ ⟨[], ⟨1, [], []⟩, []⟩
        ⟨"cam9", "rtsp://y", 5, []⟩).1 = true ∧
      (ManagerModel.add_stream ⟨fun _ => true, fun _ _ => true⟩ ⟨[], ⟨1, [], []⟩, []⟩
        ⟨"cam9", "rtsp://y", 5, []⟩).2.streams.lookup "cam9" =
        some ⟨⟨"cam9", "rtsp://y", 5, []⟩, true, true, 1⟩ ∧
      (ManagerModel.add_stream ⟨fun _ => true, fun _ _ => true⟩ ⟨[], ⟨1, [], []⟩, []⟩
        ⟨"cam9", "rtsp://y", 5, []⟩).2.engine =
        (EngineModel.load_models ⟨fun _ => true, fun _ _ => true⟩ ⟨1, [], []⟩ []).2) :=
  ⟨⟨by decide, rfl⟩,
    c2_add_stream_ignores_load_failure ⟨fun _ => true, fun _ _ => true⟩
      ⟨[], ⟨1, [], []⟩, []⟩ ⟨"cam9", "rtsp://y", 5, []⟩ (by decide) rfl⟩

/-! ## Inference worker task handling
(`src/inference/infer_worker.cpp`, `InferWorker::run` /
`InferWorker::process_task`)

`run` pops a task, calls `process_task`, and then increments
`processed_count_` unconditionally.  `process_task` bails out (dropping
the task, delivering nothing) on a missing context, missing model info,
empty input, or any failing driver call (`rknn_inputs_set`, `rknn_run`,
`rknn_outputs_get`); on success it delivers one per-model result to the
aggregator or completion sink. -/

structure InferTaskModel where
  cam_id : String
  frame_id : ℕ
  model_path : String
  task_name : String
  input_size : ℕ
  has_aggregator : Bool
deriving Repr, DecidableEq

/-- Outcome of the driver calls made for one task. -/
structure NpuTaskEnv where
  ctx_ok : Bool
  model_info_ok : Bool
  inputs_set_ok : Bool
  run_ok : Bool
  outputs_get_ok : Bool
deriving Repr, DecidableEq

/-- Token for a per-model result delivered to the aggregator or sink
(the payload contents are irrelevant to the control-flow claim). -/
structure DeliveredResult where
  task_name : String
  model_path : String
deriving Repr, DecidableEq

/-- `InferWorker::process_task` control flow: each early `return` drops
the task and produces nothing. -/
def process_task (env : NpuTaskEnv) (task : InferTaskModel) :
    Option DeliveredResult :=
  if ¬ env.ctx_ok then none
  else if ¬ env.model_info_ok then none
  else if task.input_size = 0 then none
  else if ¬ env.inputs_set_ok then none
  else if ¬ env.run_ok then none
  else if ¬ env.outputs_get_ok then none
  else some ⟨task.task_name, task.model_path⟩

structure WorkerState where
  processed_count : ℕ
  delivered : List DeliveredResult
deriving Repr, DecidableEq

/-- One iteration of `InferWorker::run` for a popped task: call
`process_task`, then `processed_count_.fetch_add(1)` unconditionally. -/
def worker_iteration (env : NpuTaskEnv) (s : WorkerState)
    (task : InferTaskModel) : WorkerState :=
  { processed_count := s.processed_count + 1,
    delivered := s.delivered ++ (process_task env task).toList }

/-- C3 counterexample: when `rknn_run` fails, the task is dropped with no
partial result, but the worker's processed counter DOES advance (the
increment in `InferWorker::run` is unconditional), contradicting the
claim that it does not advance for that task. -/
theorem c3_processed_counter_counterexample :
    process_task ⟨true, true, true, false, true⟩ ⟨"cam1", 7, "m", "t", 10, false⟩
      = none ∧
    (worker_iteration ⟨true, true, true, false, true⟩ ⟨0, []⟩
      ⟨"cam1", 7, "m", "t", 10, false⟩).delivered = [] ∧
    (worker_iteration ⟨true, true, true, false, true⟩ ⟨0, []⟩
      ⟨"cam1", 7, "m", "t", 10, false⟩).processed_count = 0 + 1 :=
  ⟨rfl, rfl, rfl⟩

/-- C3 (amended): on any driver failure (`rknn_inputs_set`, `rknn_run`
or `rknn_outputs_get`) the worker drops the task and produces no partial
result, but the per-worker processed counter still advances by one for
the popped task. -/
theorem c3_driver_error_drops_task (env : NpuTaskEnv) (s : WorkerState)
    (task : InferTaskModel)
    (herr : env.inputs_set_ok = false ∨ env.run_ok = false ∨
      env.outputs_get_ok = false) :
    (worker_iteration env s task).delivered = s.delivered ∧
    (worker_iteration env s task).processed_count = s.processed_count + 1 := by
  have hnone : process_task env task = none := by
    unfold process_task
    split_ifs <;> simp_all
  refine ⟨?_, rfl⟩
  simp [worker_iteration, hnone]

/-- Witness for C3 at a concrete environment and task. -/
theorem c3_driver_error_drops_task_witness :
    ((⟨true, true, true, false, true⟩ : NpuTaskEnv).inputs_set_ok = false ∨
      (⟨true, true, true, false, true⟩ : NpuTaskEnv).run_ok = false ∨
      (⟨true, true, true, false, true⟩ : NpuTaskEnv).outputs_get_ok = false) ∧
    ((worker_iteration ⟨true, true, true, false, true⟩ ⟨5, [⟨"t0", "m0"⟩]⟩
        ⟨"cam1", 7, "m", "t", 10, false⟩).delivered = [⟨"t0", "m0"⟩] ∧
      (worker_iteration ⟨true, true, true, false, true⟩ ⟨5, [⟨"t0", "m0"⟩]⟩
        ⟨"cam1", 7, "m", "t", 10, false⟩).processed_count = 5 + 1) :=
  ⟨Or.inr (Or.inl rfl),
    c3_driver_error_drops_task ⟨true, true, true, false, true⟩ ⟨5, [⟨"t0", "m0"⟩]⟩
      ⟨"cam1", 7, "m", "t", 10, false⟩ (Or.inr (Or.inl rfl))⟩

/-! ## Ring image cache (`src/cache/image_cache.cpp`)

One ring (`StreamCache`) per stream id; the `unordered_map` is modelled
as an association list in some fixed iteration order (the source's
iteration order is unspecified; all claims are order-insensitive).  The
JPEG payload is represented by its byte size (`jpeg_size()` is all the
cache logic reads).  The per-ring mutexes serialize the operations, so
the sequential model captures the semantics. -/

structure CachedFrame where
  cam_id : String
  frame_id : ℕ
  timestamp_ms : ℤ
  width : ℤ
  height : ℤ
  jpeg_size : ℕ
deriving Repr, DecidableEq

structure StreamCache where
  frames : List CachedFrame
  memory_bytes : ℕ
deriving Repr, DecidableEq

structure ImageCache where
  duration_sec : ℤ
  max_memory_bytes : ℕ
  caches : List (String × StreamCache)
  total_memory : ℕ
deriving Repr, DecidableEq

/-- Constructor: `max_memory_bytes_ = max_memory_mb * 1024 * 1024`. -/
def ImageCache.mk0 (duration_sec : ℤ) (max_memory_mb : ℕ) : ImageCache :=
  { duration_sec := duration_sec
    max_memory_bytes := max_memory_mb * 1024 * 1024
    caches := []
    total_memory := 0 }

/-- The `while` loop of `evict_expired`: pop from the head every frame
with `timestamp_ms < threshold`; return the remaining frames and the
freed byte count. -/
def evict_expired_frames (threshold : ℤ) : List CachedFrame → List CachedFrame × ℕ
  | [] => ([], 0)
  | f :: fs =>
    if f.timestamp_ms < threshold then
      let r := evict_expired_frames threshold fs
      (r.1, f.jpeg_size + r.2)
    else (f :: fs, 0)

/-- `ImageCache::evict_expired` on one ring (`threshold =
now_ms - duration_sec * 1000`); the freed bytes are also debited from
the global counter by the caller. -/
def StreamCache.evict_expired (sc : StreamCache) (duration_sec now_ms : ℤ) :
    StreamCache × ℕ :=
  let r := evict_expired_frames (now_ms - duration_sec * 1000) sc.frames
  ({ frames := r.1, memory_bytes := sc.memory_bytes - r.2 }, r.2)

/-- The scan of `evict_global_memory` that finds the stream whose head
frame is oldest (first strict minimum in iteration order, skipping empty
rings); returns its index and head timestamp. -/
def find_oldest : List (String × StreamCache) → Option (ℕ × ℤ)
  | [] => none
  | (_, sc) :: rest =>
    match sc.frames, find_oldest rest with
    | [], none => none
    | [], some (j, ts2) => some (j + 1, ts2)
    | f :: _, none => some (0, f.timestamp_ms)
    | f :: _, some (j, ts2) =>
      if ts2 < f.timestamp_ms then some (j + 1, ts2) else some (0, f.timestamp_ms)

/-- Pop the head frame of the ring at index `i`, debiting its size from
the ring's byte counter; returns the updated rings and the freed bytes. -/
def pop_at : List (String × StreamCache) → ℕ → List (String × StreamCache) × ℕ
  | [], _ => ([], 0)
  | (k, sc) :: rest, 0 =>
    match sc.frames with
    | [] => ((k, sc) :: rest, 0)
    | f :: fs => ((k, { frames := fs, memory_bytes := sc.memory_bytes - f.jpeg_size }) :: rest, f.jpeg_size)
  | (k, sc) :: rest, i + 1 =>
    let r := pop_at rest i
    ((k, sc) :: r.1, r.2)

def totalFrames (caches : List (String × StreamCache)) : ℕ :=
  (caches.map (fun p => p.2.frames.length)).sum

/-- One iteration of the `evict_global_memory` loop body: locate the
stream with the oldest head and pop that frame (`none` when every ring
is empty, i.e. the loop's `break`). -/
def ImageCache.pop_oldest (c : ImageCache) : Option ImageCache :=
  match find_oldest c.caches with
  | none => none
  | some (i, _) =>
    let r := pop_at c.caches i
    some { c with caches := r.1, total_memory := c.total_memory - r.2 }

theorem find_oldest_none (cs : List (String × StreamCache))
    (h : find_oldest cs = none) : ∀ p ∈ cs, p.2.frames = [] := by
  induction cs with
  | nil => intro p hp; cases hp
  | cons q rest ih =>
    intro p hp
    obtain ⟨k, sc⟩ := q
    cases hsc : sc.frames with
    | nil =>
      cases hfr : find_oldest rest with
      | none =>
        rcases List.mem_cons.mp hp with hp1 | hp2
        · rw [hp1]; exact hsc
        · exact ih hfr p hp2
      | some q2 =>
        exfalso
        obtain ⟨j, ts2⟩ := q2
        simp [find_oldest, hsc, hfr] at h
    | cons f fs =>
      exfalso
      cases hfr : find_oldest rest with
      | none => simp [find_oldest, hsc, hfr] at h
      | some q2 =>
        obtain ⟨j, ts2⟩ := q2
        simp only [find_oldest, hsc, hfr] at h
        split at h <;> exact Option.noConfusion h

theorem find_oldest_some (cs : List (String × StreamCache)) (i : ℕ) (ts : ℤ)
    (h : find_oldest cs = some (i, ts)) :
    ∃ k sc, cs[i]? = some (k, sc) ∧ sc.frames ≠ [] := by
  induction cs generalizing i ts with
  | nil => simp [find_oldest] at h
  | cons q rest ih =>
    obtain ⟨k, sc⟩ := q
    cases hsc : sc.frames with
    | nil =>
      cases hfr : find_oldest rest with
      | none => simp [find_oldest, hsc, hfr] at h
      | some p2 =>
        obtain ⟨j, ts2⟩ := p2
        simp only [find_oldest, hsc, hfr, Option.some_inj, Prod.mk.injEq] at h
        obtain ⟨hi, -⟩ := h
        obtain ⟨k2, sc2, hget, hne⟩ := ih j ts2 hfr
        refine ⟨k2, sc2, ?_, hne⟩
        rw [← hi]
        simpa using hget
    | cons f fs =>
      cases hfr : find_oldest rest with
      | none =>
        simp only [find_oldest, hsc, hfr, Option.some_inj, Prod.mk.injEq] at h
        obtain ⟨hi, -⟩ := h
        refine ⟨k, sc, ?_, by simp [hsc]⟩
        rw [← hi]
        simp
      | some p2 =>
        obtain ⟨j, ts2⟩ := p2
        simp only [find_oldest, hsc, hfr] at h
        split at h
        · simp only [Option.some_inj, Prod.mk.injEq] at h
          obtain ⟨hi, -⟩ := h
          obtain ⟨k2, sc2, hget, hne⟩ := ih j ts2 hfr
          refine ⟨k2, sc2, ?_, hne⟩
          rw [← hi]
          simpa using hget
        · simp only [Option.some_inj, Prod.mk.injEq] at h
          obtain ⟨hi, -⟩ := h
          refine ⟨k, sc, ?_, by simp [hsc]⟩
          rw [← hi]
          simp

theorem pop_at_totalFrames (cs : List (String × StreamCache)) :
    ∀ (i : ℕ) (k : String) (sc : StreamCache), cs[i]? = some (k, sc) →
      sc.frames ≠ [] → totalFrames (pop_at cs i).1 + 1 = totalFrames cs := by
  induction cs with
  | nil => intro i k sc hget; simp at hget
  | cons q rest ih =>
    intro i k sc hget hne
    obtain ⟨k1, sc1⟩ := q
    cases i with
    | zero =>
      have hq : (k1, sc1) = (k, sc) := by simpa using hget
      obtain ⟨hk1, hsc1⟩ := Prod.mk.injEq .. ▸ hq
      subst hk1 hsc1
      cases hf : sc1.frames with
      | nil => exact absurd hf hne
      | cons f fs =>
        simp only [pop_at, hf, totalFrames, List.map_cons, List.sum_cons]
        simp [hf]
        omega
    | succ j =>
      have hget2 : rest[j]? = some (k, sc) := by simpa using hget
      have := ih j k sc hget2 hne
      simp only [pop_at, totalFrames, List.map_cons, List.sum_cons]
      simp only [totalFrames] at this
      omega

theorem pop_oldest_totalFrames (c : ImageCache) (c2 : ImageCache)
    (h : c.pop_oldest = some c2) :
    totalFrames c2.caches < totalFrames c.caches := by
  unfold ImageCache.pop_oldest at h
  cases hfo : find_oldest c.caches with
  | none => rw [hfo] at h; simp at h
  | some p =>
    obtain ⟨i, ts⟩ := p
    rw [hfo] at h
    simp only [Option.some_inj] at h
    obtain ⟨k, sc, hget, hne⟩ := find_oldest_some c.caches i ts hfo
    have := pop_at_totalFrames c.caches i k sc hget hne
    have hc2 : c2.caches = (pop_at c.caches i).1 := by rw [← h]
    rw [hc2]
    omega

/-- The `while (total > max)` loop of `evict_global_memory`: repeatedly
pop the globally oldest head frame until the counter is at or below the
budget or every ring is empty. -/
def ImageCache.evict_global (c : ImageCache) : ImageCache :=
  if c.max_memory_bytes < c.total_memory then
    match h : c.pop_oldest with
    | none => c
    | some c2 => ImageCache.evict_global c2
  else c
termination_by totalFrames c.caches
decreasing_by exact pop_oldest_totalFrames c c2 h

/-- The per-ring part of `add_frame` on the rings map: find or create the
ring for `f.cam_id` (`get_or_create_cache`), evict its expired frames,
and append `f`; returns the updated rings and the expiry-freed bytes. -/
def add_frame_entries (dur : ℤ) (f : CachedFrame) :
    List (String × StreamCache) → List (String × StreamCache) × ℕ
  | [] => ([(f.cam_id, { frames := [f], memory_bytes := f.jpeg_size })], 0)
  | (k, sc) :: rest =>
    if k = f.cam_id then
      let ev := sc.evict_expired dur f.timestamp_ms
      ((k, { frames := ev.1.frames ++ [f],
             memory_bytes := ev.1.memory_bytes + f.jpeg_size }) :: rest, ev.2)
    else
      let r := add_frame_entries dur f rest
      ((k, sc) :: r.1, r.2)

/-- `ImageCache::add_frame`: update the ring, debit the expiry-freed
bytes and credit the new frame's size on the global counter, then
trigger global eviction when a positive budget is exceeded. -/
def ImageCache.add_frame (c : ImageCache) (f : CachedFrame) : ImageCache :=
  let r := add_frame_entries c.duration_sec f c.caches
  let total1 := c.total_memory - r.2 + f.jpeg_size
  let c1 : ImageCache := { c with caches := r.1, total_memory := total1 }
  if 0 < c.max_memory_bytes ∧ c.max_memory_bytes < total1 then c1.evict_global
  else c1

/-- The map part of `remove_stream`: erase the entry (if present) and
report its byte counter. -/
def remove_entries (cam : String) :
    List (String × StreamCache) → List (String × StreamCache) × ℕ
  | [] => ([], 0)
  | (k, sc) :: rest =>
    if k = cam then (rest, sc.memory_bytes)
    else
      let r := remove_entries cam rest
      ((k, sc) :: r.1, r.2)

/-- `ImageCache::remove_stream`: erase the ring and debit its byte
counter from the global counter. -/
def ImageCache.remove_stream (c : ImageCache) (cam : String) : ImageCache :=
  let r := remove_entries cam c.caches
  { c with caches := r.1, total_memory := c.total_memory - r.2 }

/-- Cache operations reaching the rings map from the pipeline and the
manager. -/
inductive CacheOp where
  | add (f : CachedFrame) : CacheOp
  | remove (cam : String) : CacheOp
deriving Repr, DecidableEq

def ImageCache.applyOp (c : ImageCache) : CacheOp → ImageCache
  | .add f => c.add_frame f
  | .remove cam => c.remove_stream cam

def ImageCache.applyOps (c : ImageCache) (ops : List CacheOp) : ImageCache :=
  ops.foldl ImageCache.applyOp c

/-! ### Cache byte-accounting invariants -/

/-- A ring's byte counter equals the sum of its frames' JPEG sizes. -/
def StreamCache.wf (sc : StreamCache) : Prop :=
  sc.memory_bytes = (sc.frames.map CachedFrame.jpeg_size).sum

def cachesWf (cs : List (String × StreamCache)) : Prop := ∀ p ∈ cs, p.2.wf

def sumBytes (cs : List (String × StreamCache)) : ℕ :=
  (cs.map (fun p => p.2.memory_bytes)).sum

/-- Global well-formedness: every ring counter is consistent and the
global counter is the sum of the ring counters. -/
def ImageCache.wf (c : ImageCache) : Prop :=
  cachesWf c.caches ∧ c.total_memory = sumBytes c.caches

theorem evict_expired_frames_sum (t : ℤ) (l : List CachedFrame) :
    ((evict_expired_frames t l).1.map CachedFrame.jpeg_size).sum +
      (evict_expired_frames t l).2 = (l.map CachedFrame.jpeg_size).sum := by
  induction l with
  | nil => simp [evict_expired_frames]
  | cons f fs ih =>
    by_cases hts : f.timestamp_ms < t
    · simp only [evict_expired_frames, if_pos hts, List.map_cons, List.sum_cons]
      omega
    · simp [evict_expired_frames, if_neg hts]

theorem evict_expired_frames_suffix (t : ℤ) (l : List CachedFrame) :
    (evict_expired_frames t l).1 <:+ l := by
  induction l with
  | nil => simp [evict_expired_frames]
  | cons f fs ih =>
    by_cases hts : f.timestamp_ms < t
    · simp only [evict_expired_frames, if_pos hts]
      exact ih.trans (List.suffix_cons f fs)
    · simp [evict_expired_frames, if_neg hts]

theorem StreamCache.evict_expired_wf (sc : StreamCache) (d now : ℤ)
    (h : sc.wf) :
    (sc.evict_expired d now).1.wf ∧
    (sc.evict_expired d now).1.memory_bytes + (sc.evict_expired d now).2 =
      sc.memory_bytes ∧
    (sc.evict_expired d now).2 ≤ sc.memory_bytes := by
  have hsum := evict_expired_frames_sum (now - d * 1000) sc.frames
  unfold StreamCache.evict_expired StreamCache.wf
  unfold StreamCache.wf at h
  refine ⟨?_, ?_, ?_⟩ <;> simp only <;> omega

theorem add_frame_entries_wf (d : ℤ) (f : CachedFrame)
    (cs : List (String × StreamCache)) (h : cachesWf cs) :
    cachesWf (add_frame_entries d f cs).1 ∧
    sumBytes (add_frame_entries d f cs).1 + (add_frame_entries d f cs).2 =
      sumBytes cs + f.jpeg_size ∧
    (add_frame_entries d f cs).2 ≤ sumBytes cs := by
  induction cs with
  | nil =>
    refine ⟨?_, by simp [add_frame_entries, sumBytes], by simp [add_frame_entries]⟩
    intro p hp
    simp only [add_frame_entries, List.mem_singleton] at hp
    rw [hp]
    simp [StreamCache.wf]
  | cons q rest ih =>
    obtain ⟨k, sc⟩ := q
    have hsc : sc.wf := h (k, sc) (List.mem_cons_self _ _)
    have hrest : cachesWf rest := fun p hp => h p (List.mem_cons_of_mem _ hp)
    by_cases hk : k = f.cam_id
    · obtain ⟨hev_wf, hev_sum, hev_le⟩ :=
        StreamCache.evict_expired_wf sc d f.timestamp_ms hsc
      simp only [add_frame_entries, if_pos hk]
      refine ⟨?_, ?_, ?_⟩
      · intro p hp
        rcases List.mem_cons.mp hp with hp1 | hp2
        · rw [hp1]
          unfold StreamCache.wf at hev_wf ⊢
          simp only [List.map_append, List.sum_append, List.map_cons,
            List.map_nil, List.sum_cons, List.sum_nil]
          omega
        · exact hrest p hp2
      · simp only [sumBytes, List.map_cons, List.sum_cons]
        simp only [sumBytes] at *
        omega
      · simp only [sumBytes, List.map_cons, List.sum_cons]
        omega
    · obtain ⟨ih_wf, ih_sum, ih_le⟩ := ih hrest
      simp only [add_frame_entries, if_neg hk]
      refine ⟨?_, ?_, ?_⟩
      · intro p hp
        rcases List.mem_cons.mp hp with hp1 | hp2
        · rw [hp1]; exact hsc
        · exact ih_wf p hp2
      · simp only [sumBytes, List.map_cons, List.sum_cons]
        simp only [sumBytes] at ih_sum
        omega
      · simp only [sumBytes, List.map_cons, List.sum_cons]
        simp only [sumBytes] at ih_le
        omega

theorem pop_at_wf (cs : List (String × StreamCache)) :
    ∀ i : ℕ, cachesWf cs →
      cachesWf (pop_at cs i).1 ∧
      sumBytes (pop_at cs i).1 + (pop_at cs i).2 = sumBytes cs := by
  induction cs with
  | nil => intro i _; simp [pop_at, sumBytes, cachesWf]
  | cons q rest ih =>
    intro i h
    obtain ⟨k, sc⟩ := q
    have hsc : sc.wf := h (k, sc) (List.mem_cons_self _ _)
    have hrest : cachesWf rest := fun p hp => h p (List.mem_cons_of_mem _ hp)
    cases i with
    | zero =>
      cases hf : sc.frames with
      | nil =>
        simp only [pop_at, hf]
        exact ⟨h, by simp [sumBytes]⟩
      | cons g gs =>
        simp only [pop_at, hf]
        have hmem : sc.memory_bytes =
            g.jpeg_size + (gs.map CachedFrame.jpeg_size).sum := by
          unfold StreamCache.wf at hsc
          rw [hsc, hf]
          simp
        refine ⟨?_, ?_⟩
        · intro p hp
          rcases List.mem_cons.mp hp with hp1 | hp2
          · rw [hp1]
            unfold StreamCache.wf
            simp only
            omega
          · exact hrest p hp2
        · simp only [sumBytes, List.map_cons, List.sum_cons]
          omega
    | succ j =>
      obtain ⟨ih_wf, ih_sum⟩ := ih j hrest
      simp only [pop_at]
      refine ⟨?_, ?_⟩
      · intro p hp
        rcases List.mem_cons.mp hp with hp1 | hp2
        · rw [hp1]; exact hsc
        · exact ih_wf p hp2
      · simp only [sumBytes, List.map_cons, List.sum_cons]
        simp only [sumBytes] at ih_sum
        omega

theorem remove_entries_wf (cam : String) (cs : List (String × StreamCache))
    (h : cachesWf cs) :
    cachesWf (remove_entries cam cs).1 ∧
    sumBytes (remove_entries cam cs).1 + (remove_entries cam cs).2 =
      sumBytes cs := by
  induction cs with
  | nil => exact ⟨h, by simp [remove_entries, sumBytes]⟩
  | cons q rest ih =>
    obtain ⟨k, sc⟩ := q
    have hsc : sc.wf := h (k, sc) (List.mem_cons_self _ _)
    have hrest : cachesWf rest := fun p hp => h p (List.mem_cons_of_mem _ hp)
    by_cases hk : k = cam
    · simp only [remove_entries, if_pos hk]
      exact ⟨hrest, by simp [sumBytes]; omega⟩
    · obtain ⟨ih_wf, ih_sum⟩ := ih hrest
      simp only [remove_entries, if_neg hk]
      refine ⟨?_, ?_⟩
      · intro p hp
        rcases List.mem_cons.mp hp with hp1 | hp2
        · rw [hp1]; exact hsc
        · exact ih_wf p hp2
      · simp only [sumBytes, List.map_cons, List.sum_cons]
        simp only [sumBytes] at ih_sum
        omega

theorem pop_oldest_wf (c c2 : ImageCache) (h : c.pop_oldest = some c2)
    (hwf : c.wf) :
    c2.wf ∧ c2.max_memory_bytes = c.max_memory_bytes ∧
      c2.duration_sec = c.duration_sec := by
  unfold ImageCache.pop_oldest at h
  cases hfo : find_oldest c.caches with
  | none => rw [hfo] at h; exact Option.noConfusion h
  | some p =>
    obtain ⟨i, ts⟩ := p
    rw [hfo] at h
    simp only [Option.some_inj] at h
    obtain ⟨hcwf, htot⟩ := hwf
    obtain ⟨hwf2, hsum⟩ := pop_at_wf c.caches i hcwf
    subst h
    refine ⟨⟨hwf2, ?_⟩, rfl, rfl⟩
    simp only
    omega

theorem sumBytes_eq_zero (cs : List (String × StreamCache))
    (hcwf : cachesWf cs) (hempty : ∀ p ∈ cs, p.2.frames = []) :
    sumBytes cs = 0 := by
  unfold sumBytes
  apply List.sum_eq_zero
  intro x hx
  obtain ⟨p, hp, hxp⟩ := List.mem_map.mp hx
  have hw := hcwf p hp
  unfold StreamCache.wf at hw
  rw [← hxp, hw, hempty p hp]
  rfl

theorem evict_global_spec_aux (n : ℕ) :
    ∀ c : ImageCache, totalFrames c.caches < n → c.wf →
      c.evict_global.wf ∧
      c.evict_global.max_memory_bytes = c.max_memory_bytes ∧
      c.evict_global.duration_sec = c.duration_sec ∧
      (c.evict_global.total_memory ≤ c.max_memory_bytes ∨
        c.evict_global.total_memory = 0) := by
  induction n with
  | zero => intro c hlt; exact absurd hlt (Nat.not_lt_zero _)
  | succ n ih =>
    intro c hlt hwf
    rw [ImageCache.evict_global]
    by_cases hover : c.max_memory_bytes < c.total_memory
    · rw [if_pos hover]
      cases hpo : c.pop_oldest with
      | none =>
        simp only [hpo]
        have hfo : find_oldest c.caches = none := by
          unfold ImageCache.pop_oldest at hpo
          cases hf2 : find_oldest c.caches with
          | none => rfl
          | some p =>
            obtain ⟨i, ts⟩ := p
            rw [hf2] at hpo
            exact Option.noConfusion hpo
        have hempty := find_oldest_none c.caches hfo
        obtain ⟨hcwf, htot⟩ := hwf
        have hzero : sumBytes c.caches = 0 := sumBytes_eq_zero c.caches hcwf hempty
        refine ⟨⟨hcwf, htot⟩, by simp, by simp, Or.inr (by omega)⟩
      | some c2 =>
        simp only [hpo]
        obtain ⟨hwf2, hmax2, hdur2⟩ := pop_oldest_wf c c2 hpo hwf
        have hlt2 : totalFrames c2.caches < n := by
          have := pop_oldest_totalFrames c c2 hpo
          omega
        obtain ⟨ha, hb, hc, hd⟩ := ih c2 hlt2 hwf2
        refine ⟨ha, by rw [hb, hmax2], by rw [hc, hdur2], ?_⟩
        rw [hmax2] at hd
        exact hd
    · rw [if_neg hover]
      exact ⟨hwf, rfl, rfl, Or.inl (by omega)⟩

theorem ImageCache.evict_global_spec (c : ImageCache) (hwf : c.wf) :
    c.evict_global.wf ∧
    c.evict_global.max_memory_bytes = c.max_memory_bytes ∧
    c.evict_global.duration_sec = c.duration_sec ∧
    (c.evict_global.total_memory ≤ c.max_memory_bytes ∨
      c.evict_global.total_memory = 0) :=
  evict_global_spec_aux (totalFrames c.caches + 1) c (Nat.lt_succ_self _) hwf

theorem ImageCache.add_frame_wf (c : ImageCache) (f : CachedFrame)
    (hwf : c.wf) :
    (c.add_frame f).wf ∧
    (c.add_frame f).max_memory_bytes = c.max_memory_bytes ∧
    (c.add_frame f).duration_sec = c.duration_sec := by
  obtain ⟨hcwf, htot⟩ := hwf
  obtain ⟨h1, h2, h3⟩ := add_frame_entries_wf c.duration_sec f c.caches hcwf
  unfold ImageCache.add_frame
  simp only
  have hwf1 : (⟨c.duration_sec, c.max_memory_bytes,
      (add_frame_entries c.duration_sec f c.caches).1,
      c.total_memory - (add_frame_entries c.duration_sec f c.caches).2 +
        f.jpeg_size⟩ : ImageCache).wf := by
    refine ⟨h1, ?_⟩
    simp only
    omega
  by_cases hc : 0 < c.max_memory_bytes ∧
      c.max_memory_bytes <
        c.total_memory - (add_frame_entries c.duration_sec f c.caches).2 +
          f.jpeg_size
  · rw [if_pos hc]
    obtain ⟨ha, hb, hd, -⟩ := ImageCache.evict_global_spec _ hwf1
    exact ⟨ha, hb, hd⟩
  · rw [if_neg hc]
    exact ⟨hwf1, rfl, rfl⟩

theorem ImageCache.add_frame_budget (c : ImageCache) (f : CachedFrame)
    (hwf : c.wf) (hmax : 0 < c.max_memory_bytes) :
    (c.add_frame f).total_memory ≤ c.max_memory_bytes := by
  obtain ⟨hcwf, htot⟩ := hwf
  obtain ⟨h1, h2, h3⟩ := add_frame_entries_wf c.duration_sec f c.caches hcwf
  unfold ImageCache.add_frame
  simp only
  have hwf1 : (⟨c.duration_sec, c.max_memory_bytes,
      (add_frame_entries c.duration_sec f c.caches).1,
      c.total_memory - (add_frame_entries c.duration_sec f c.caches).2 +
        f.jpeg_size⟩ : ImageCache).wf := by
    refine ⟨h1, ?_⟩
    simp only
    omega
  by_cases hc : 0 < c.max_memory_bytes ∧
      c.max_memory_bytes <
        c.total_memory - (add_frame_entries c.duration_sec f c.caches).2 +
          f.jpeg_size
  · rw [if_pos hc]
    obtain ⟨-, hb, -, hd⟩ := ImageCache.evict_global_spec _ hwf1
    dsimp only at hb hd ⊢
    rcases hd with hd | hd <;> omega
  · rw [if_neg hc]
    simp only
    omega

theorem ImageCache.remove_stream_wf (c : ImageCache) (cam : String)
    (hwf : c.wf) :
    (c.remove_stream cam).wf ∧
    (c.remove_stream cam).max_memory_bytes = c.max_memory_bytes ∧
    (c.remove_stream cam).duration_sec = c.duration_sec := by
  obtain ⟨hcwf, htot⟩ := hwf
  obtain ⟨h1, h2⟩ := remove_entries_wf cam c.caches hcwf
  unfold ImageCache.remove_stream
  refine ⟨⟨h1, ?_⟩, rfl, rfl⟩
  simp only
  omega

theorem ImageCache.applyOp_wf (c : ImageCache) (op : CacheOp) (hwf : c.wf) :
    (c.applyOp op).wf ∧
    (c.applyOp op).max_memory_bytes = c.max_memory_bytes ∧
    (c.applyOp op).duration_sec = c.duration_sec := by
  cases op with
  | add f => exact ImageCache.add_frame_wf c f hwf
  | remove cam => exact ImageCache.remove_stream_wf c cam hwf

theorem ImageCache.applyOps_wf (ops : List CacheOp) :
    ∀ c : ImageCache, c.wf →
      (c.applyOps ops).wf ∧
      (c.applyOps ops).max_memory_bytes = c.max_memory_bytes := by
  induction ops with
  | nil => intro c hwf; exact ⟨hwf, rfl⟩
  | cons op rest ih =>
    intro c hwf
    obtain ⟨h1, h2, -⟩ := ImageCache.applyOp_wf c op hwf
    obtain ⟨h3, h4⟩ := ih (c.applyOp op) h1
    have hunf : c.applyOps (op :: rest) = (c.applyOp op).applyOps rest := rfl
    rw [hunf]
    exact ⟨h3, by rw [h4, h2]⟩

theorem ImageCache.mk0_wf (D : ℤ) (mb : ℕ) : (ImageCache.mk0 D mb).wf := by
  exact ⟨fun p hp => absurd hp (List.not_mem_nil p), rfl⟩

theorem add_frames_budget_aux (fs : List CachedFrame) :
    ∀ c : ImageCache, c.wf → 0 < c.max_memory_bytes →
      c.total_memory ≤ c.max_memory_bytes →
      ((c.applyOps (fs.map CacheOp.add)).total_memory ≤ c.max_memory_bytes) := by
  induction fs with
  | nil => intro c _ _ h; exact h
  | cons f fs ih =>
    intro c hwf hmax htot
    obtain ⟨h1, h2, -⟩ := ImageCache.add_frame_wf c f hwf
    have hstep := ImageCache.add_frame_budget c f hwf hmax
    have := ih (c.add_frame f) h1 (by rw [h2]; exact hmax) (by rw [h2]; exact hstep)
    simp only [ImageCache.applyOps, List.map_cons, List.foldl_cons]
    rw [show (c.applyOp (CacheOp.add f)) = c.add_frame f from rfl]
    simp only [ImageCache.applyOps] at this
    calc ((c.add_frame f).applyOps (fs.map CacheOp.add)).total_memory
      ≤ (c.add_frame f).max_memory_bytes := this
    _ = c.max_memory_bytes := h2

/-- C6: for a cache built with a positive budget (`max_memory_mb = mb`,
so `B = mb * 2^20` bytes), after every sequence of `add_frame` calls
(each frame's JPEG at most `B` bytes, as in the claim) the global byte
counter is at most `B`. -/
theorem c6_cache_respects_budget (D : ℤ) (mb : ℕ) (hmb : 0 < mb)
    (fs : List CachedFrame)
    (_hsize : ∀ f ∈ fs, f.jpeg_size ≤ mb * 1024 * 1024) :
    ((ImageCache.mk0 D mb).applyOps (fs.map CacheOp.add)).total_memory ≤
      mb * 1024 * 1024 := by
  have hmax : 0 < (ImageCache.mk0 D mb).max_memory_bytes := by
    simp only [ImageCache.mk0]
    positivity
  exact add_frames_budget_aux fs (ImageCache.mk0 D mb) (ImageCache.mk0_wf D mb)
    hmax (by simp [ImageCache.mk0])

/-- Witness for C6 with budget 1 MiB and four 300 KiB frames (three
would exceed the budget, so global eviction must fire). -/
theorem c6_cache_respects_budget_witness :
    (0 < 1 ∧
      (∀ f ∈ [(⟨"a", 1, 1000, 8, 8, 300000⟩ : CachedFrame),
              ⟨"a", 2, 2000, 8, 8, 300000⟩,
              ⟨"a", 3, 3000, 8, 8, 300000⟩,
              ⟨"a", 4, 4000, 8, 8, 300000⟩],
        f.jpeg_size ≤ 1 * 1024 * 1024)) ∧
    ((ImageCache.mk0 60 1).applyOps
      (([(⟨"a", 1, 1000, 8, 8, 300000⟩ : CachedFrame),
          ⟨"a", 2, 2000, 8, 8, 300000⟩,
          ⟨"a", 3, 3000, 8, 8, 300000⟩,
          ⟨"a", 4, 4000, 8, 8, 300000⟩]).map CacheOp.add)).total_memory ≤
      1 * 1024 * 1024 :=
  ⟨⟨by decide, by decide⟩,
    c6_cache_respects_budget 60 1 (by decide) _ (by decide)⟩

/-! ### Cache ring ordering (timestamp monotonicity) -/

/-- Every ring's frame sequence is sorted by timestamp (non-decreasing). -/
def ringsSorted (cs : List (String × StreamCache)) : Prop :=
  ∀ p ∈ cs, List.Sorted (· ≤ ·) (p.2.frames.map CachedFrame.timestamp_ms)

/-- Frames of `cs2` all come from the ring of the same stream in `cs`. -/
def ringMemSub (cs2 cs : List (String × StreamCache)) : Prop :=
  ∀ p2 ∈ cs2, ∀ g ∈ p2.2.frames, ∃ p ∈ cs, p.1 = p2.1 ∧ g ∈ p.2.frames

theorem ringMemSub_refl (cs : List (String × StreamCache)) : ringMemSub cs cs :=
  fun p2 hp2 g hg => ⟨p2, hp2, rfl, hg⟩

theorem ringMemSub_trans {cs3 cs2 cs : List (String × StreamCache)}
    (h32 : ringMemSub cs3 cs2) (h21 : ringMemSub cs2 cs) :
    ringMemSub cs3 cs := by
  intro p3 hp3 g hg
  obtain ⟨p2, hp2, hk2, hg2⟩ := h32 p3 hp3 g hg
  obtain ⟨p1, hp1, hk1, hg1⟩ := h21 p2 hp2 g hg2
  exact ⟨p1, hp1, by rw [hk1, hk2], hg1⟩

theorem evict_expired_frames_mem (t : ℤ) (l : List CachedFrame) :
    ∀ g ∈ (evict_expired_frames t l).1, g ∈ l :=
  fun g hg => (evict_expired_frames_suffix t l).sublist.subset hg

theorem pop_at_mem (cs : List (String × StreamCache)) :
    ∀ i : ℕ, ringMemSub (pop_at cs i).1 cs := by
  induction cs with
  | nil => intro i; simp [pop_at, ringMemSub]
  | cons q rest ih =>
    intro i
    obtain ⟨k, sc⟩ := q
    cases i with
    | zero =>
      cases hf : sc.frames with
      | nil =>
        simp only [pop_at, hf]
        exact ringMemSub_refl _
      | cons g gs =>
        simp only [pop_at, hf]
        intro p2 hp2 x hx
        rcases List.mem_cons.mp hp2 with hp1 | hp1
        · refine ⟨(k, sc), List.mem_cons_self _ _, by rw [hp1], ?_⟩
          rw [hf]
          rw [hp1] at hx
          exact List.mem_cons_of_mem g hx
        · exact ⟨p2, List.mem_cons_of_mem _ hp1, rfl, hx⟩
    | succ j =>
      simp only [pop_at]
      intro p2 hp2 x hx
      rcases List.mem_cons.mp hp2 with hp1 | hp1
      · exact ⟨(k, sc), List.mem_cons_self _ _, by rw [hp1], by rw [← hp1]; exact hx⟩
      · obtain ⟨p1, hp1a, hk1, hx1⟩ := ih j p2 hp1 x hx
        exact ⟨p1, List.mem_cons_of_mem _ hp1a, hk1, hx1⟩

theorem pop_at_sorted (cs : List (String × StreamCache)) :
    ∀ i : ℕ, ringsSorted cs → ringsSorted (pop_at cs i).1 := by
  induction cs with
  | nil => intro i h; simpa [pop_at] using h
  | cons q rest ih =>
    intro i h
    obtain ⟨k, sc⟩ := q
    have hq := h (k, sc) (List.mem_cons_self _ _)
    have hrest : ringsSorted rest := fun p hp => h p (List.mem_cons_of_mem _ hp)
    cases i with
    | zero =>
      cases hf : sc.frames with
      | nil => simpa [pop_at, hf] using h
      | cons g gs =>
        simp only [pop_at, hf]
        intro p hp
        rcases List.mem_cons.mp hp with hp1 | hp1
        · rw [hp1]
          simp only
          have hsg : List.Sorted (· ≤ ·) ((g :: gs).map CachedFrame.timestamp_ms) := by
            rw [← hf]; exact hq
          simp only [List.map_cons] at hsg
          exact (List.sorted_cons.mp hsg).2
        · exact hrest p hp1
    | succ j =>
      simp only [pop_at]
      intro p hp
      rcases List.mem_cons.mp hp with hp1 | hp1
      · rw [hp1]; exact hq
      · exact ih j hrest p hp1

theorem pop_oldest_mem_sorted (c c2 : ImageCache) (h : c.pop_oldest = some c2) :
    ringMemSub c2.caches c.caches ∧
      (ringsSorted c.caches → ringsSorted c2.caches) := by
  unfold ImageCache.pop_oldest at h
  cases hfo : find_oldest c.caches with
  | none => rw [hfo] at h; exact Option.noConfusion h
  | some p =>
    obtain ⟨i, ts⟩ := p
    rw [hfo] at h
    simp only [Option.some_inj] at h
    have hc2 : c2.caches = (pop_at c.caches i).1 := by rw [← h]
    rw [hc2]
    exact ⟨pop_at_mem c.caches i, pop_at_sorted c.caches i⟩

theorem evict_global_mem_sorted_aux (n : ℕ) :
    ∀ c : ImageCache, totalFrames c.caches < n →
      ringMemSub c.evict_global.caches c.caches ∧
      (ringsSorted c.caches → ringsSorted c.evict_global.caches) := by
  induction n with
  | zero => intro c hlt; exact absurd hlt (Nat.not_lt_zero _)
  | succ n ih =>
    intro c hlt
    rw [ImageCache.evict_global]
    by_cases hover : c.max_memory_bytes < c.total_memory
    · rw [if_pos hover]
      cases hpo : c.pop_oldest with
      | none =>
        simp only [hpo]
        exact ⟨ringMemSub_refl _, fun h => h⟩
      | some c2 =>
        simp only [hpo]
        obtain ⟨hmem, hsort⟩ := pop_oldest_mem_sorted c c2 hpo
        have hlt2 : totalFrames c2.caches < n := by
          have := pop_oldest_totalFrames c c2 hpo
          omega
        obtain ⟨hmem2, hsort2⟩ := ih c2 hlt2
        exact ⟨ringMemSub_trans hmem2 hmem, fun h => hsort2 (hsort h)⟩
    · rw [if_neg hover]
      exact ⟨ringMemSub_refl _, fun h => h⟩

theorem ImageCache.evict_global_mem_sorted (c : ImageCache) :
    ringMemSub c.evict_global.caches c.caches ∧
    (ringsSorted c.caches → ringsSorted c.evict_global.caches) :=
  evict_global_mem_sorted_aux (totalFrames c.caches + 1) c (Nat.lt_succ_self _)

theorem remove_entries_mem_sorted (cam : String)
    (cs : List (String × StreamCache)) :
    ringMemSub (remove_entries cam cs).1 cs ∧
    (ringsSorted cs → ringsSorted (remove_entries cam cs).1) := by
  induction cs with
  | nil => exact ⟨ringMemSub_refl _, fun h => h⟩
  | cons q rest ih =>
    obtain ⟨k, sc⟩ := q
    by_cases hk : k = cam
    · simp only [remove_entries, if_pos hk]
      constructor
      · intro p2 hp2 g hg
        exact ⟨p2, List.mem_cons_of_mem _ hp2, rfl, hg⟩
      · intro h p hp
        exact h p (List.mem_cons_of_mem _ hp)
    · simp only [remove_entries, if_neg hk]
      obtain ⟨ihm, ihs⟩ := ih
      constructor
      · intro p2 hp2 g hg
        rcases List.mem_cons.mp hp2 with hp1 | hp1
        · exact ⟨(k, sc), List.mem_cons_self _ _, by rw [hp1], by rw [← hp1]; exact hg⟩
        · obtain ⟨p1, hp1a, hk1, hg1⟩ := ihm p2 hp1 g hg
          exact ⟨p1, List.mem_cons_of_mem _ hp1a, hk1, hg1⟩
      · intro h p hp
        have hq := h (k, sc) (List.mem_cons_self _ _)
        have hrest : ringsSorted rest := fun p2 hp2 => h p2 (List.mem_cons_of_mem _ hp2)
        rcases List.mem_cons.mp hp with hp1 | hp1
        · rw [hp1]; exact hq
        · exact ihs hrest p hp1

theorem add_frame_entries_mem (d : ℤ) (f : CachedFrame)
    (cs : List (String × StreamCache)) :
    ∀ p2 ∈ (add_frame_entries d f cs).1, ∀ g ∈ p2.2.frames,
      (∃ p ∈ cs, p.1 = p2.1 ∧ g ∈ p.2.frames) ∨
        (g = f ∧ p2.1 = f.cam_id) := by
  induction cs with
  | nil =>
    intro p2 hp2 g hg
    simp only [add_frame_entries, List.mem_singleton] at hp2
    rw [hp2] at hg ⊢
    simp only [List.mem_singleton] at hg
    exact Or.inr ⟨hg, rfl⟩
  | cons q rest ih =>
    obtain ⟨k, sc⟩ := q
    by_cases hk : k = f.cam_id
    · simp only [add_frame_entries, if_pos hk]
      intro p2 hp2 g hg
      rcases List.mem_cons.mp hp2 with hp1 | hp1
      · rw [hp1] at hg
        simp only at hg
        rcases List.mem_append.mp hg with hg1 | hg1
        · refine Or.inl ⟨(k, sc), List.mem_cons_self _ _, by rw [hp1], ?_⟩
          exact evict_expired_frames_mem _ sc.frames g hg1
        · simp only [List.mem_singleton] at hg1
          exact Or.inr ⟨hg1, by rw [hp1]; exact hk⟩
      · exact Or.inl ⟨p2, List.mem_cons_of_mem _ hp1, rfl, hg⟩
    · simp only [add_frame_entries, if_neg hk]
      intro p2 hp2 g hg
      rcases List.mem_cons.mp hp2 with hp1 | hp1
      · exact Or.inl ⟨(k, sc), List.mem_cons_self _ _, by rw [hp1],
          by rw [← hp1]; exact hg⟩
      · rcases ih p2 hp1 g hg with ⟨p, hp, hk1, hg1⟩ | hr
        · exact Or.inl ⟨p, List.mem_cons_of_mem _ hp, hk1, hg1⟩
        · exact Or.inr hr

theorem add_frame_entries_sorted (d : ℤ) (f : CachedFrame)
    (cs : List (String × StreamCache)) (hs : ringsSorted cs)
    (hb : ∀ p ∈ cs, p.1 = f.cam_id → ∀ g ∈ p.2.frames,
      g.timestamp_ms ≤ f.timestamp_ms) :
    ringsSorted (add_frame_entries d f cs).1 := by
  induction cs with
  | nil =>
    intro p2 hp2
    simp only [add_frame_entries, List.mem_singleton] at hp2
    rw [hp2]
    simp [List.Sorted]
  | cons q rest ih =>
    obtain ⟨k, sc⟩ := q
    have hq := hs (k, sc) (List.mem_cons_self _ _)
    have hrest : ringsSorted rest := fun p hp => hs p (List.mem_cons_of_mem _ hp)
    by_cases hk : k = f.cam_id
    · simp only [add_frame_entries, if_pos hk]
      intro p2 hp2
      rcases List.mem_cons.mp hp2 with hp1 | hp1
      · rw [hp1]
        simp only [List.map_append, List.map_cons, List.map_nil]
        rw [List.Sorted, List.pairwise_append]
        refine ⟨?_, by simp, ?_⟩
        · exact hq.sublist
            ((evict_expired_frames_suffix _ sc.frames).sublist.map
              CachedFrame.timestamp_ms)
        · intro a ha b hb2
          simp only [List.mem_cons, List.not_mem_nil, or_false] at hb2
          rw [hb2]
          obtain ⟨g, hg, hga⟩ := List.mem_map.mp ha
          rw [← hga]
          exact hb (k, sc) (List.mem_cons_self _ _) hk g
            (evict_expired_frames_mem _ sc.frames g hg)
      · exact hrest p2 hp1
    · simp only [add_frame_entries, if_neg hk]
      have hbrest : ∀ p ∈ rest, p.1 = f.cam_id → ∀ g ∈ p.2.frames,
          g.timestamp_ms ≤ f.timestamp_ms :=
        fun p hp => hb p (List.mem_cons_of_mem _ hp)
      intro p2 hp2
      rcases List.mem_cons.mp hp2 with hp1 | hp1
      · rw [hp1]; exact hq
      · exact ih hrest hbrest p2 hp1

theorem ImageCache.add_frame_mem_sorted (c : ImageCache) (f : CachedFrame) :
    (∀ p2 ∈ (c.add_frame f).caches, ∀ g ∈ p2.2.frames,
      (∃ p ∈ c.caches, p.1 = p2.1 ∧ g ∈ p.2.frames) ∨
        (g = f ∧ p2.1 = f.cam_id)) ∧
    (ringsSorted c.caches →
      (∀ p ∈ c.caches, p.1 = f.cam_id → ∀ g ∈ p.2.frames,
        g.timestamp_ms ≤ f.timestamp_ms) →
      ringsSorted (c.add_frame f).caches) := by
  unfold ImageCache.add_frame
  simp only
  by_cases hc : 0 < c.max_memory_bytes ∧
      c.max_memory_bytes <
        c.total_memory - (add_frame_entries c.duration_sec f c.caches).2 +
          f.jpeg_size
  · rw [if_pos hc]
    obtain ⟨hevm, hevs⟩ := ImageCache.evict_global_mem_sorted
      ⟨c.duration_sec, c.max_memory_bytes,
        (add_frame_entries c.duration_sec f c.caches).1,
        c.total_memory - (add_frame_entries c.duration_sec f c.caches).2 +
          f.jpeg_size⟩
    simp only at hevm hevs
    constructor
    · intro p2 hp2 g hg
      obtain ⟨p1, hp1, hk1, hg1⟩ := hevm p2 hp2 g hg
      rcases add_frame_entries_mem c.duration_sec f c.caches p1 hp1 g hg1 with
        ⟨p, hp, hk, hgm⟩ | ⟨hgf, hkf⟩
      · exact Or.inl ⟨p, hp, by rw [hk, hk1], hgm⟩
      · exact Or.inr ⟨hgf, by rw [← hk1, hkf]⟩
    · intro hs hbnd
      exact hevs (add_frame_entries_sorted c.duration_sec f c.caches hs hbnd)
  · rw [if_neg hc]
    exact ⟨add_frame_entries_mem c.duration_sec f c.caches,
      fun hs hbnd => add_frame_entries_sorted c.duration_sec f c.caches hs hbnd⟩

/-- The timestamps of the `add_frame` operations for stream `id`, in
operation order. -/
def addTimestamps (id : String) : List CacheOp → List ℤ
  | [] => []
  | CacheOp.add f :: rest =>
    if f.cam_id = id then f.timestamp_ms :: addTimestamps id rest
    else addTimestamps id rest
  | CacheOp.remove _ :: rest => addTimestamps id rest

theorem applyOps_monotone (ops : List CacheOp) :
    ∀ c : ImageCache,
      ringsSorted c.caches →
      (∀ id, List.Sorted (· ≤ ·) (addTimestamps id ops)) →
      (∀ p ∈ c.caches, ∀ g ∈ p.2.frames, ∀ t ∈ addTimestamps p.1 ops,
        g.timestamp_ms ≤ t) →
      ringsSorted (c.applyOps ops).caches := by
  induction ops with
  | nil => intro c hs _ _; exact hs
  | cons op rest ih =>
    intro c hs hsorted hcompat
    have hunf : c.applyOps (op :: rest) = (c.applyOp op).applyOps rest := rfl
    rw [hunf]
    cases op with
    | add f =>
      obtain ⟨hmem, hsortpres⟩ := ImageCache.add_frame_mem_sorted c f
      have hstep : ringsSorted (c.add_frame f).caches := by
        apply hsortpres hs
        intro p hp hpk g hg
        refine hcompat p hp g hg f.timestamp_ms ?_
        simp [addTimestamps, hpk.symm]
      apply ih (c.add_frame f) hstep
      · intro id
        have h := hsorted id
        by_cases hid : f.cam_id = id
        · rw [show addTimestamps id (CacheOp.add f :: rest) =
              f.timestamp_ms :: addTimestamps id rest by
            simp [addTimestamps, hid]] at h
          exact (List.sorted_cons.mp h).2
        · rwa [show addTimestamps id (CacheOp.add f :: rest) =
              addTimestamps id rest by simp [addTimestamps, hid]] at h
      · intro p2 hp2 g hg t ht
        rcases hmem p2 hp2 g hg with ⟨p, hp, hk, hgm⟩ | ⟨hgf, hkf⟩
        · refine hcompat p hp g hgm t ?_
          rw [hk]
          by_cases hid : f.cam_id = p2.1
          · rw [show addTimestamps p2.1 (CacheOp.add f :: rest) =
                f.timestamp_ms :: addTimestamps p2.1 rest by
              simp [addTimestamps, hid]]
            exact List.mem_cons_of_mem _ ht
          · rwa [show addTimestamps p2.1 (CacheOp.add f :: rest) =
                addTimestamps p2.1 rest by simp [addTimestamps, hid]]
        · rw [hgf]
          have h := hsorted p2.1
          rw [show addTimestamps p2.1 (CacheOp.add f :: rest) =
              f.timestamp_ms :: addTimestamps p2.1 rest by
            simp [addTimestamps, hkf.symm]] at h
          exact (List.sorted_cons.mp h).1 t ht
    | remove cam =>
      obtain ⟨hmem, hsortpres⟩ := remove_entries_mem_sorted cam c.caches
      have hcam : (c.applyOp (CacheOp.remove cam)).caches =
          (remove_entries cam c.caches).1 := rfl
      apply ih (c.applyOp (CacheOp.remove cam))
      · rw [hcam]; exact hsortpres hs
      · intro id
        exact hsorted id
      · intro p2 hp2 g hg t ht
        rw [hcam] at hp2
        obtain ⟨p, hp, hk, hgm⟩ := hmem p2 hp2 g hg
        refine hcompat p hp g hgm t ?_
        rw [hk]
        exact ht

/-- C7 (amended): after any sequence of `add_frame` / `remove_stream`
operations, the sum of the per-stream byte counters equals the global
byte counter; and PROVIDED each stream's frames are inserted in
non-decreasing timestamp order (which the single-producer pipeline
guarantees), every ring is monotone in timestamp.  Without that
proviso the monotonicity half of the claim fails (see the
counterexample): `add_frame` appends unconditionally. -/
theorem c7_cache_sum_and_monotone (D : ℤ) (mb : ℕ) :
    (∀ ops : List CacheOp,
      ((ImageCache.mk0 D mb).applyOps ops).total_memory =
        sumBytes ((ImageCache.mk0 D mb).applyOps ops).caches) ∧
    (∀ ops : List CacheOp,
      (∀ id, List.Sorted (· ≤ ·) (addTimestamps id ops)) →
      ringsSorted ((ImageCache.mk0 D mb).applyOps ops).caches) := by
  constructor
  · intro ops
    exact ((ImageCache.applyOps_wf ops (ImageCache.mk0 D mb)
      (ImageCache.mk0_wf D mb)).1).2
  · intro ops hsorted
    apply applyOps_monotone ops (ImageCache.mk0 D mb)
    · intro p hp
      exact absurd hp (List.not_mem_nil p)
    · exact hsorted
    · intro p hp
      exact absurd hp (List.not_mem_nil p)

/-- Witness for C7: two in-order insertions plus a stream removal. -/
theorem c7_cache_sum_and_monotone_witness :
    (∀ id, List.Sorted (· ≤ ·) (addTimestamps id
      [CacheOp.add ⟨"a", 1, 1000, 8, 8, 4⟩,
        CacheOp.add ⟨"a", 2, 5000, 8, 8, 4⟩, CacheOp.remove "b"])) ∧
    (((ImageCache.mk0 60 1).applyOps
      [CacheOp.add ⟨"a", 1, 1000, 8, 8, 4⟩,
        CacheOp.add ⟨"a", 2, 5000, 8, 8, 4⟩, CacheOp.remove "b"]).total_memory =
      sumBytes ((ImageCache.mk0 60 1).applyOps
        [CacheOp.add ⟨"a", 1, 1000, 8, 8, 4⟩,
          CacheOp.add ⟨"a", 2, 5000, 8, 8, 4⟩, CacheOp.remove "b"]).caches) ∧
    ringsSorted (((ImageCache.mk0 60 1).applyOps
      [CacheOp.add ⟨"a", 1, 1000, 8, 8, 4⟩,
        CacheOp.add ⟨"a", 2, 5000, 8, 8, 4⟩, CacheOp.remove "b"]).caches) := by
  have hsorted : ∀ id, List.Sorted (· ≤ ·) (addTimestamps id
      [CacheOp.add ⟨"a", 1, 1000, 8, 8, 4⟩,
        CacheOp.add ⟨"a", 2, 5000, 8, 8, 4⟩, CacheOp.remove "b"]) := by
    intro id
    by_cases hid : ("a" : String) = id
    · simp only [addTimestamps, if_pos hid]
      decide
    · simp only [addTimestamps, if_neg hid]
      decide
  exact ⟨hsorted, (c7_cache_sum_and_monotone 60 1).1 _,
    (c7_cache_sum_and_monotone 60 1).2 _ hsorted⟩

/-- C7 counterexample: the monotonicity half of the claim is false for
arbitrary insertion orders.  Inserting timestamps 5000 then 1000 into
one stream (retention 60 s, no byte budget) leaves the ring sequence
[5000, 1000], which is not monotone: `add_frame` appends at the tail
without comparing timestamps. -/
theorem c7_monotone_counterexample :
    (((ImageCache.mk0 60 0).applyOps
      [CacheOp.add ⟨"a", 1, 5000, 8, 8, 1⟩,
        CacheOp.add ⟨"a", 2, 1000, 8, 8, 1⟩]).caches.map
          (fun p => p.2.frames.map CachedFrame.timestamp_ms)) = [[5000, 1000]] ∧
    ¬ List.Sorted (· ≤ ·) ([5000, 1000] : List ℤ) := by
  constructor
  · rfl
  · decide

/-! ## Post-processor (`src/inference/post_processor.cpp`)

Pure float computations, modelled over an arbitrary linear ordered
field: instantiated at `ℚ` for the NMS claims and at `ℝ` for the
YOLOv11 decoder (whose class-score path applies the transcendental
`sigmoid`). -/

variable {α : Type} [LinearOrderedField α]

/-- `PostProcessor::iou`. -/
def iou (a b : BBox α) : α :=
  let inter_x1 := max a.x1 b.x1
  let inter_y1 := max a.y1 b.y1
  let inter_x2 := min a.x2 b.x2
  let inter_y2 := min a.y2 b.y2
  let inter_area := max 0 (inter_x2 - inter_x1) * max 0 (inter_y2 - inter_y1)
  let area_a := (a.x2 - a.x1) * (a.y2 - a.y1)
  let area_b := (b.x2 - b.x1) * (b.y2 - b.y1)
  let union_area := area_a + area_b - inter_area
  if union_area > 0 then inter_area / union_area else 0

theorem iou_nonneg (a b : BBox α) : 0 ≤ iou a b := by
  simp only [iou]
  split
  · apply div_nonneg
    · exact mul_nonneg (le_max_left 0 _) (le_max_left 0 _)
    · linarith
  · exact le_refl 0

theorem iou_comm (a b : BBox α) : iou a b = iou b a := by
  simp only [iou]
  rw [max_comm a.x1 b.x1, max_comm a.y1 b.y1, min_comm a.x2 b.x2,
    min_comm a.y2 b.y2, add_comm ((a.x2 - a.x1) * (a.y2 - a.y1))]

theorem iou_le_one (a b : BBox α) : iou a b ≤ 1 := by
  simp only [iou]
  split
  case isFalse => exact zero_le_one
  case isTrue hu =>
    rw [div_le_one (by linarith)]
    by_cases hw : min a.x2 b.x2 - max a.x1 b.x1 ≤ 0
    · rw [max_eq_left hw, zero_mul] at hu ⊢
      linarith
    · by_cases hh : min a.y2 b.y2 - max a.y1 b.y1 ≤ 0
      · rw [max_eq_left hh, mul_zero] at hu ⊢
        linarith
      · push_neg at hw hh
        rw [max_eq_right (le_of_lt hw), max_eq_right (le_of_lt hh)]
        have hwa : min a.x2 b.x2 - max a.x1 b.x1 ≤ a.x2 - a.x1 := by
          have h1 : min a.x2 b.x2 ≤ a.x2 := min_le_left _ _
          have h2 : a.x1 ≤ max a.x1 b.x1 := le_max_left _ _
          linarith
        have hha : min a.y2 b.y2 - max a.y1 b.y1 ≤ a.y2 - a.y1 := by
          have h1 : min a.y2 b.y2 ≤ a.y2 := min_le_left _ _
          have h2 : a.y1 ≤ max a.y1 b.y1 := le_max_left _ _
          linarith
        have hwb : min a.x2 b.x2 - max a.x1 b.x1 ≤ b.x2 - b.x1 := by
          have h1 : min a.x2 b.x2 ≤ b.x2 := min_le_right _ _
          have h2 : b.x1 ≤ max a.x1 b.x1 := le_max_right _ _
          linarith
        have hhb : min a.y2 b.y2 - max a.y1 b.y1 ≤ b.y2 - b.y1 := by
          have h1 : min a.y2 b.y2 ≤ b.y2 := min_le_right _ _
          have h2 : b.y1 ≤ max a.y1 b.y1 := le_max_right _ _
          linarith
        have hab : (min a.x2 b.x2 - max a.x1 b.x1) * (min a.y2 b.y2 - max a.y1 b.y1)
            ≤ (a.x2 - a.x1) * (a.y2 - a.y1) :=
          mul_le_mul hwa hha (le_of_lt hh) (by linarith)
        have hbb : (min a.x2 b.x2 - max a.x1 b.x1) * (min a.y2 b.y2 - max a.y1 b.y1)
            ≤ (b.x2 - b.x1) * (b.y2 - b.y1) :=
          mul_le_mul hwb hhb (le_of_lt hh) (by linarith)
        linarith

/-- Insertion step of the model's deterministic descending sort (the
source uses `std::sort` with comparator `a.confidence > b.confidence`;
any ordering non-increasing in confidence refines it). -/
def insertDesc (d : Detection α) : List (Detection α) → List (Detection α)
  | [] => [d]
  | e :: rest =>
    if e.confidence > d.confidence then e :: insertDesc d rest
    else d :: e :: rest

/-- Sort descending by confidence. -/
def sortDesc (l : List (Detection α)) : List (Detection α) :=
  l.foldr insertDesc []

/-- `a` ranks at least as high as `b` (descending-confidence order). -/
def descConf (a b : Detection α) : Prop := b.confidence ≤ a.confidence

/-- The greedy suppression pass of `PostProcessor::nms` in functional
form: keep the head survivor and delete every later detection of the
same class whose IoU with it exceeds the threshold (the source marks a
`suppressed` array and skips marked entries; deleting them up front is
the same computation, since suppressed entries are never output and
never suppress others). -/
def nmsLoop (t : α) : List (Detection α) → List (Detection α)
  | [] => []
  | d :: rest =>
    d :: nmsLoop t (rest.filter (fun e =>
      ! (decide (e.class_id = d.class_id) && decide (iou d.bbox e.bbox > t))))
termination_by l => l.length
decreasing_by
  simp only [List.length_cons]
  exact Nat.lt_succ_of_le (List.length_filter_le _ _)

/-- `PostProcessor::nms`: sort descending by confidence, then greedily
suppress. -/
def nms (detections : List (Detection α)) (threshold : α) : List (Detection α) :=
  nmsLoop threshold (sortDesc detections)

/-! ### Sorting lemmas -/

theorem insertDesc_mem (d : Detection α) (l : List (Detection α)) :
    ∀ x ∈ insertDesc d l, x = d ∨ x ∈ l := by
  induction l with
  | nil => intro x hx; simpa [insertDesc] using hx
  | cons e rest ih =>
    intro x hx
    by_cases hc : e.confidence > d.confidence
    · simp only [insertDesc, if_pos hc] at hx
      rcases List.mem_cons.mp hx with hx1 | hx1
      · exact Or.inr (by rw [hx1]; exact List.mem_cons_self _ _)
      · rcases ih x hx1 with hx2 | hx2
        · exact Or.inl hx2
        · exact Or.inr (List.mem_cons_of_mem _ hx2)
    · simp only [insertDesc, if_neg hc] at hx
      rcases List.mem_cons.mp hx with hx1 | hx1
      · exact Or.inl hx1
      · exact Or.inr hx1

theorem insertDesc_perm (d : Detection α) (l : List (Detection α)) :
    List.Perm (insertDesc d l) (d :: l) := by
  induction l with
  | nil => simp [insertDesc]
  | cons e rest ih =>
    by_cases hc : e.confidence > d.confidence
    · simp only [insertDesc, if_pos hc]
      exact (List.Perm.cons e ih).trans (List.Perm.swap d e rest)
    · simp only [insertDesc, if_neg hc]
      exact List.Perm.refl _

theorem insertDesc_sorted (d : Detection α) (l : List (Detection α))
    (h : l.Pairwise descConf) : (insertDesc d l).Pairwise descConf := by
  induction l with
  | nil => simp [insertDesc, List.Pairwise]
  | cons e rest ih =>
    obtain ⟨hhead, htail⟩ := List.pairwise_cons.mp h
    by_cases hc : e.confidence > d.confidence
    · simp only [insertDesc, if_pos hc]
      refine List.pairwise_cons.mpr ⟨?_, ih htail⟩
      intro x hx
      rcases insertDesc_mem d rest x hx with hx1 | hx1
      · rw [hx1]
        exact le_of_lt hc
      · exact hhead x hx1
    · simp only [insertDesc, if_neg hc]
      refine List.pairwise_cons.mpr ⟨?_, h⟩
      intro x hx
      rcases List.mem_cons.mp hx with hx1 | hx1
      · rw [hx1]
        exact not_lt.mp hc
      · exact le_trans (hhead x hx1) (not_lt.mp hc)

theorem sortDesc_perm (l : List (Detection α)) : List.Perm (sortDesc l) l := by
  induction l with
  | nil => rfl
  | cons x rest ih =>
    have : sortDesc (x :: rest) = insertDesc x (sortDesc rest) := rfl
    rw [this]
    exact (insertDesc_perm x (sortDesc rest)).trans (List.Perm.cons x ih)

theorem sortDesc_sorted (l : List (Detection α)) :
    (sortDesc l).Pairwise descConf := by
  induction l with
  | nil => simp [sortDesc, List.Pairwise]
  | cons x rest ih => exact insertDesc_sorted x (sortDesc rest) ih

/-! ### NMS lemmas -/

theorem nmsLoop_sublist_aux (t : α) (n : ℕ) :
    ∀ l : List (Detection α), l.length ≤ n → List.Sublist (nmsLoop t l) l := by
  induction n with
  | zero =>
    intro l hl
    rw [List.eq_nil_of_length_eq_zero (Nat.le_zero.mp hl)]
    simp [nmsLoop]
  | succ n ih =>
    intro l hl
    cases l with
    | nil => simp [nmsLoop]
    | cons d rest =>
      rw [nmsLoop]
      refine List.Sublist.cons₂ d ?_
      refine List.Sublist.trans (ih _ ?_) (List.filter_sublist rest)
      have h1 := List.length_filter_le (fun e =>
        ! (decide (e.class_id = d.class_id) && decide (iou d.bbox e.bbox > t))) rest
      have h2 : rest.length ≤ n := by simpa using hl
      omega

theorem nmsLoop_sublist (t : α) (l : List (Detection α)) :
    List.Sublist (nmsLoop t l) l :=
  nmsLoop_sublist_aux t l.length l (le_refl _)

/-- Survivors of the suppression pass never exceed the threshold with a
same-class survivor. -/
theorem nmsLoop_pairwise_aux (t : α) (n : ℕ) :
    ∀ l : List (Detection α), l.length ≤ n →
      (nmsLoop t l).Pairwise
        (fun a b => a.class_id = b.class_id → iou a.bbox b.bbox ≤ t) := by
  induction n with
  | zero =>
    intro l hl
    rw [List.eq_nil_of_length_eq_zero (Nat.le_zero.mp hl)]
    simp [nmsLoop]
  | succ n ih =>
    intro l hl
    cases l with
    | nil => simp [nmsLoop]
    | cons d rest =>
      rw [nmsLoop]
      refine List.pairwise_cons.mpr ⟨?_, ?_⟩
      · intro e he
        have hef : e ∈ rest.filter (fun e =>
            ! (decide (e.class_id = d.class_id) && decide (iou d.bbox e.bbox > t))) :=
          (nmsLoop_sublist t _).subset he
        have hp := (List.mem_filter.mp hef).2
        intro hcls
        by_contra hgt
        push_neg at hgt
        simp [hcls, hgt] at hp
      · refine ih _ ?_
        have h1 := List.length_filter_le (fun e =>
          ! (decide (e.class_id = d.class_id) && decide (iou d.bbox e.bbox > t))) rest
        have h2 : rest.length ≤ n := by simpa using hl
        omega

theorem nmsLoop_pairwise (t : α) (l : List (Detection α)) :
    (nmsLoop t l).Pairwise
      (fun a b => a.class_id = b.class_id → iou a.bbox b.bbox ≤ t) :=
  nmsLoop_pairwise_aux t l.length l (le_refl _)

/-- At threshold 1 nothing is ever suppressed (IoU never exceeds 1). -/
theorem nmsLoop_one_aux (n : ℕ) :
    ∀ l : List (Detection α), l.length ≤ n → nmsLoop 1 l = l := by
  induction n with
  | zero =>
    intro l hl
    rw [List.eq_nil_of_length_eq_zero (Nat.le_zero.mp hl)]
    simp [nmsLoop]
  | succ n ih =>
    intro l hl
    cases l with
    | nil => simp [nmsLoop]
    | cons d rest =>
      rw [nmsLoop]
      have hfilter : rest.filter (fun e =>
          ! (decide (e.class_id = d.class_id) && decide (iou d.bbox e.bbox > (1 : α)))) = rest := by
        apply List.filter_eq_self.mpr
        intro e _
        have := iou_le_one d.bbox e.bbox
        simp [not_lt.mpr this]
      rw [hfilter]
      exact congrArg (d :: ·) (ih rest (by simpa using hl))

/-- The symmetric no-mutual-suppression relation on survivors. -/
theorem nms_relation_symmetric (t : α) :
    Symmetric (fun a b : Detection α =>
      a.class_id = b.class_id → iou a.bbox b.bbox ≤ t) := by
  intro a b hab hcls
  rw [iou_comm]
  exact hab hcls.symm

/-- A detection with a distinct same-class survivor overlapping above
the threshold cannot itself survive. -/
theorem nmsLoop_not_mem_of_suppressor (t : α) (l : List (Detection α))
    (e : Detection α) (d : Detection α) (hd : d ∈ nmsLoop t l) (hne : d ≠ e)
    (hcls : d.class_id = e.class_id) (hgt : iou d.bbox e.bbox > t) :
    e ∉ nmsLoop t l := by
  intro hmem
  have hpw := nmsLoop_pairwise t l
  have := List.Pairwise.forall (nms_relation_symmetric t) hpw hd hmem hne hcls
  exact absurd hgt (not_lt.mpr this)

/-- A dropped detection has a surviving suppressor: a higher-or-equal
confidence survivor of the same class with IoU above the threshold. -/
theorem nmsLoop_dropped_suppressor_aux (t : α) (n : ℕ) :
    ∀ l : List (Detection α), l.length ≤ n → l.Pairwise descConf →
      ∀ e ∈ l, e ∉ nmsLoop t l →
        ∃ d ∈ nmsLoop t l, d.class_id = e.class_id ∧
          iou d.bbox e.bbox > t ∧ e.confidence ≤ d.confidence := by
  induction n with
  | zero =>
    intro l hl _ e he
    rw [List.eq_nil_of_length_eq_zero (Nat.le_zero.mp hl)] at he
    cases he
  | succ n ih =>
    intro l hl hsort e he hnot
    cases l with
    | nil => cases he
    | cons d rest =>
      obtain ⟨hhead, htail⟩ := List.pairwise_cons.mp hsort
      rw [nmsLoop] at hnot ⊢
      rcases List.mem_cons.mp he with rfl | he2
      · exact absurd (List.mem_cons_self _ _) hnot
      · by_cases hp : e.class_id = d.class_id ∧ iou d.bbox e.bbox > t
        · obtain ⟨hcls, hgt⟩ := hp
          exact ⟨d, List.mem_cons_self _ _, hcls.symm, hgt, hhead e he2⟩
        · have hp2 : (! (decide (e.class_id = d.class_id) &&
              decide (iou d.bbox e.bbox > t))) = true := by
            rcases Decidable.em (e.class_id = d.class_id) with hA | hA
            · have hB : ¬ iou d.bbox e.bbox > t := fun hB => hp ⟨hA, hB⟩
              simp [hA, hB]
            · simp [hA]
          have hef : e ∈ rest.filter (fun x =>
              ! (decide (x.class_id = d.class_id) && decide (iou d.bbox x.bbox > t))) :=
            List.mem_filter.mpr ⟨he2, hp2⟩
          have hnot2 : e ∉ nmsLoop t (rest.filter (fun x =>
              ! (decide (x.class_id = d.class_id) && decide (iou d.bbox x.bbox > t)))) :=
            fun hcontra => hnot (List.mem_cons_of_mem _ hcontra)
          have hlen : (rest.filter (fun x =>
              ! (decide (x.class_id = d.class_id) && decide (iou d.bbox x.bbox > t)))).length ≤ n := by
            have h1 := List.length_filter_le (fun x =>
              ! (decide (x.class_id = d.class_id) && decide (iou d.bbox x.bbox > t))) rest
            have h2 : rest.length ≤ n := by simpa using hl
            omega
          have hsort2 : (rest.filter (fun x =>
              ! (decide (x.class_id = d.class_id) &&
                decide (iou d.bbox x.bbox > t)))).Pairwise descConf :=
            htail.sublist (List.filter_sublist rest)
          obtain ⟨d2, hd2, hc2, hi2, hconf2⟩ := ih _ hlen hsort2 e hef hnot2
          exact ⟨d2, List.mem_cons_of_mem _ hd2, hc2, hi2, hconf2⟩

/-- C9 (amended): (a) with NMS threshold 1 no detection is ever
suppressed: the output is the input sorted descending by confidence (the
model's deterministic sort, shown to be a permutation sorted under
`descConf`); (b) with threshold 0, any two distinct same-class survivors
have zero IoU (at most one detection per class survives only among
mutually overlapping boxes — disjoint same-class boxes all survive, see
the counterexample); (c) a detection of the sorted list is suppressed
exactly when a distinct surviving detection of the same class, ranked at
least as high, has IoU with it strictly exceeding the threshold. -/
theorem c9_nms_characterization :
    (∀ dets : List (Detection ℚ),
      nms dets 1 = sortDesc dets ∧
      List.Perm (sortDesc dets) dets ∧
      (sortDesc dets).Pairwise descConf) ∧
    (∀ dets : List (Detection ℚ), ∀ a ∈ nms dets 0, ∀ b ∈ nms dets 0,
      a ≠ b → a.class_id = b.class_id → iou a.bbox b.bbox = 0) ∧
    (∀ (t : ℚ) (dets : List (Detection ℚ)), ∀ e ∈ sortDesc dets,
      (e ∉ nms dets t ↔ ∃ d ∈ nms dets t, d ≠ e ∧ d.class_id = e.class_id ∧
        iou d.bbox e.bbox > t ∧ e.confidence ≤ d.confidence)) := by
  refine ⟨?_, ?_, ?_⟩
  · intro dets
    exact ⟨nmsLoop_one_aux (sortDesc dets).length (sortDesc dets) (le_refl _),
      sortDesc_perm dets, sortDesc_sorted dets⟩
  · intro dets a ha b hb hne hcls
    have hpw := nmsLoop_pairwise 0 (sortDesc dets)
    have hle := List.Pairwise.forall (nms_relation_symmetric 0) hpw ha hb hne hcls
    exact le_antisymm hle (iou_nonneg a.bbox b.bbox)
  · intro t dets e he
    constructor
    · intro hnot
      obtain ⟨d, hd, hc, hi, hcf⟩ :=
        nmsLoop_dropped_suppressor_aux t (sortDesc dets).length (sortDesc dets)
          (le_refl _) (sortDesc_sorted dets) e he hnot
      refine ⟨d, hd, fun heq => hnot (heq ▸ hd), hc, hi, hcf⟩
    · rintro ⟨d, hd, hne, hcls, hgt, -⟩
      exact nmsLoop_not_mem_of_suppressor t (sortDesc dets) e d hd hne hcls hgt

/-- High-confidence detection used in the NMS examples. -/
def dA : Detection ℚ := ⟨0, "", 9/10, ⟨0, 0, 2, 2⟩⟩

/-- Lower-confidence detection of the same class overlapping `dA`
(IoU 1/7). -/
def dB : Detection ℚ := ⟨0, "", 8/10, ⟨1, 1, 3, 3⟩⟩

/-- Lower-confidence detection of the same class disjoint from `dA`
(IoU 0). -/
def dC : Detection ℚ := ⟨0, "", 8/10, ⟨5, 5, 6, 6⟩⟩

theorem dA_ne_dC : dA ≠ dC := by
  intro h
  have hx := congrArg (fun d : Detection ℚ => d.bbox.x1) h
  norm_num [dA, dC] at hx

theorem iou_dA_dC : iou dA.bbox dC.bbox = 0 := by
  norm_num [iou, dA, dC, max_def, min_def]

theorem iou_dA_dB : iou dA.bbox dB.bbox = 1 / 7 := by
  norm_num [iou, dA, dB, max_def, min_def]

theorem sortDesc_dA_dC : sortDesc [dA, dC] = [dA, dC] := by
  show insertDesc dA (insertDesc dC []) = [dA, dC]
  norm_num [insertDesc, dA, dC]

theorem sortDesc_dA_dB : sortDesc [dA, dB] = [dA, dB] := by
  show insertDesc dA (insertDesc dB []) = [dA, dB]
  norm_num [insertDesc, dA, dB]

theorem nms_dA_dC_zero : nms [dA, dC] 0 = [dA, dC] := by
  show nmsLoop 0 (sortDesc [dA, dC]) = [dA, dC]
  rw [sortDesc_dA_dC, nmsLoop]
  have hfilter : [dC].filter (fun e =>
      ! (decide (e.class_id = dA.class_id) &&
        decide (iou dA.bbox e.bbox > (0 : ℚ)))) = [dC] := by
    have := iou_dA_dC
    simp [this]
  rw [hfilter, nmsLoop]
  have hnil : ([] : List (Detection ℚ)).filter (fun e =>
      ! (decide (e.class_id = dC.class_id) &&
        decide (iou dC.bbox e.bbox > (0 : ℚ)))) = [] := rfl
  rw [hnil, nmsLoop]

/-- C9 counterexample: with NMS threshold 0, two disjoint detections of
the same class BOTH survive (suppression requires IoU strictly greater
than the threshold, and disjoint boxes have IoU 0), so "at most one
detection per class" is false. -/
theorem c9_threshold_zero_counterexample :
    nms [dA, dC] 0 = [dA, dC] ∧
    dA.class_id = dC.class_id ∧ dA ≠ dC ∧
    (nms [dA, dC] 0).length = 2 := by
  refine ⟨nms_dA_dC_zero, rfl, dA_ne_dC, ?_⟩
  rw [nms_dA_dC_zero]
  rfl

/-- Witness for C9: concrete instances of all three parts. -/
theorem c9_nms_characterization_witness :
    (nms [dA, dC] 1 = sortDesc [dA, dC] ∧
      List.Perm (sortDesc [dA, dC]) [dA, dC] ∧
      (sortDesc [dA, dC]).Pairwise descConf) ∧
    ((dA ∈ nms [dA, dC] 0 ∧ dC ∈ nms [dA, dC] 0 ∧ dA ≠ dC ∧
        dA.class_id = dC.class_id) ∧
      iou dA.bbox dC.bbox = 0) ∧
    (dB ∈ sortDesc [dA, dB] ∧
      (dB ∉ nms [dA, dB] 0 ↔ ∃ d ∈ nms [dA, dB] 0, d ≠ dB ∧
        d.class_id = dB.class_id ∧ iou d.bbox dB.bbox > 0 ∧
        dB.confidence ≤ d.confidence)) := by
  have hmA : dA ∈ nms [dA, dC] 0 := by
    rw [nms_dA_dC_zero]; exact List.mem_cons_self _ _
  have hmC : dC ∈ nms [dA, dC] 0 := by
    rw [nms_dA_dC_zero]; exact List.mem_cons_of_mem _ (List.mem_cons_self _ _)
  have hmB : dB ∈ sortDesc [dA, dB] := by
    rw [sortDesc_dA_dB]; exact List.mem_cons_of_mem _ (List.mem_cons_self _ _)
  refine ⟨c9_nms_characterization.1 [dA, dC],
    ⟨⟨hmA, hmC, dA_ne_dC, rfl⟩, ?_⟩,
    ⟨hmB, c9_nms_characterization.2.2 0 [dA, dB] dB hmB⟩⟩
  exact c9_nms_characterization.2.1 [dA, dC] dA hmA dC hmC dA_ne_dC rfl

/-! ### Coordinate unletterboxing (`PostProcessor::scale_coords`) -/

/-- `scale_coords`: undo the letterbox (subtract padding, divide by the
scale), then clamp each coordinate into the original frame. -/
def scale_coords (dets : List (Detection α)) (model_w model_h orig_w orig_h : ℤ) :
    List (Detection α) :=
  let scale : α := min ((model_w : α) / (orig_w : α)) ((model_h : α) / (orig_h : α))
  let pad_x : α := ((model_w : α) - (orig_w : α) * scale) / 2
  let pad_y : α := ((model_h : α) - (orig_h : α) * scale) / 2
  dets.map (fun det =>
    { det with bbox :=
      { x1 := max 0 (min ((det.bbox.x1 - pad_x) / scale) (orig_w : α))
        y1 := max 0 (min ((det.bbox.y1 - pad_y) / scale) (orig_h : α))
        x2 := max 0 (min ((det.bbox.x2 - pad_x) / scale) (orig_w : α))
        y2 := max 0 (min ((det.bbox.y2 - pad_y) / scale) (orig_h : α)) } })

/-! ### YOLOv11 decoder (`PostProcessor::yolov11`)

The single fused head is `[1, 4+C, A]` channel-major: channel `c` of
anchor `i` lives at flat offset `c * A + i`.  The source builds an
8400-point anchor grid (80×80 at stride 8, 40×40 at stride 16, 20×20 at
stride 32 for a 640×640 input) and indexes it by `i`; indices past 8400
are out of bounds in the source (undefined behaviour), so the model
returns `(0, 0)` there and the theorems assume `A ≤ 8400`. -/

structure TensorAttr where
  n_elems : ℤ
  dims : List ℤ
  zp : ℤ
  scale : ℚ
  is_int8 : Bool
deriving Repr, DecidableEq

/-- The anchor grid point for flat anchor index `i`. -/
def anchor_point (i : ℕ) : α × α :=
  if i < 6400 then
    ((((i % 80 : ℕ) : α) + 1 / 2) * 8, (((i / 80 : ℕ) : α) + 1 / 2) * 8)
  else if i < 8000 then
    (((((i - 6400) % 40 : ℕ) : α) + 1 / 2) * 16,
      ((((i - 6400) / 40 : ℕ) : α) + 1 / 2) * 16)
  else if i < 8400 then
    (((((i - 8000) % 20 : ℕ) : α) + 1 / 2) * 32,
      ((((i - 8000) / 20 : ℕ) : α) + 1 / 2) * 32)
  else (0, 0)

/-- The argmax loop over class scores: start from class 0 and replace the
best on a strictly larger score. -/
def best_class_fold (score : ℕ → α) (num_classes : ℕ) : ℕ × α :=
  (List.range' 1 (num_classes - 1)).foldl
    (fun acc c => if score c > acc.2 then (c, score c) else acc)
    (0, score 0)

/-- `PostProcessor::sigmoid` on IEEE floats, modelled over `ℝ`. -/
noncomputable def sigmoid (x : ℝ) : ℝ := 1 / (1 + Real.exp (-x))

theorem sigmoid_pos (x : ℝ) : 0 < sigmoid x := by
  unfold sigmoid
  positivity

/-- `PostProcessor::yolov11`: one output head `[1, 4+C, A]`; per anchor,
argmax the raw class scores, sigmoid the best, reject below the
threshold; read the four box channels as distances `[left, top, right,
bottom]` from the anchor point (`x1 = ax - l`, ..., `y2 = ay + b`; the
stride table built beside the anchor grid is unused by this decode);
then shared NMS and unletterboxing. -/
noncomputable def yolov11 (outputs : List (ℕ → ℝ)) (attrs : List TensorAttr)
    (model_w model_h orig_w orig_h : ℤ) (conf_thresh nms_thresh : ℝ)
    (labels : List String) : List (Detection ℝ) :=
  if outputs.length ≠ 1 ∨ attrs.length ≠ 1 then []
  else
    let data := outputs.getD 0 (fun _ => 0)
    let attr := attrs.getD 0 ⟨0, [], 0, 0, false⟩
    if attr.dims.length < 3 then []
    else
      let num_channels := attr.dims.getD 1 0
      let num_anchors := attr.dims.getD 2 0
      let num_classes := num_channels - 4
      if num_classes ≤ 0 then []
      else
        let A := num_anchors.toNat
        let all_detections := (List.range A).foldl (fun acc i =>
          let best := best_class_fold (fun c => data ((4 + c) * A + i))
            num_classes.toNat
          if sigmoid best.2 < conf_thresh then acc
          else
            acc ++ [{ class_id := (best.1 : ℤ)
                      class_name :=
                        if labels ≠ [] ∧ best.1 < labels.length then
                          labels.getD best.1 ""
                        else ""
                      confidence := sigmoid best.2
                      bbox := ⟨(anchor_point i).1 - data (0 * A + i),
                               (anchor_point i).2 - data (1 * A + i),
                               (anchor_point i).1 + data (2 * A + i),
                               (anchor_point i).2 + data (3 * A + i)⟩ }]) []
        scale_coords (nms all_detections nms_thresh) model_w model_h orig_w orig_h

/-- The decode that the SPEC sentence describes (first variant): the four
box channels are already `[cx, cy, w, h]` in model-input pixels, the
class scores are used raw (no sigmoid) and compared with the threshold;
shared NMS and unletterboxing follow.  Stated from the spec's words for
comparison with the source's `yolov11` above. -/
noncomputable def yolov11_as_claimed (outputs : List (ℕ → ℝ)) (attrs : List TensorAttr)
    (model_w model_h orig_w orig_h : ℤ) (conf_thresh nms_thresh : ℝ)
    (labels : List String) : List (Detection ℝ) :=
  if outputs.length ≠ 1 ∨ attrs.length ≠ 1 then []
  else
    let data := outputs.getD 0 (fun _ => 0)
    let attr := attrs.getD 0 ⟨0, [], 0, 0, false⟩
    if attr.dims.length < 3 then []
    else
      let num_channels := attr.dims.getD 1 0
      let num_anchors := attr.dims.getD 2 0
      let num_classes := num_channels - 4
      if num_classes ≤ 0 then []
      else
        let A := num_anchors.toNat
        let all_detections := (List.range A).foldl (fun acc i =>
          let best := best_class_fold (fun c => data ((4 + c) * A + i))
            num_classes.toNat
          if best.2 < conf_thresh then acc
          else
            let cx := data (0 * A + i)
            let cy := data (1 * A + i)
            let w := data (2 * A + i)
            let h := data (3 * A + i)
            acc ++ [{ class_id := (best.1 : ℤ)
                      class_name :=
                        if labels ≠ [] ∧ best.1 < labels.length then
                          labels.getD best.1 ""
                        else ""
                      confidence := best.2
                      bbox := ⟨cx - w / 2, cy - h / 2, cx + w / 2, cy + h / 2⟩ }]) []
        scale_coords (nms all_detections nms_thresh) model_w model_h orig_w orig_h

/-! ### YOLOv11 lemmas -/

theorem fold_max_invariant (score : ℕ → α) (L : List ℕ) :
    ∀ acc : ℕ × α, acc.2 = score acc.1 →
      (L.foldl (fun acc c => if score c > acc.2 then (c, score c) else acc) acc).2 =
        score (L.foldl (fun acc c => if score c > acc.2 then (c, score c) else acc) acc).1 ∧
      ((L.foldl (fun acc c => if score c > acc.2 then (c, score c) else acc) acc) = acc ∨
        (L.foldl (fun acc c => if score c > acc.2 then (c, score c) else acc) acc).1 ∈ L) ∧
      acc.2 ≤ (L.foldl (fun acc c => if score c > acc.2 then (c, score c) else acc) acc).2 ∧
      ∀ c ∈ L, score c ≤
        (L.foldl (fun acc c => if score c > acc.2 then (c, score c) else acc) acc).2 := by
  induction L with
  | nil =>
    intro acc hacc
    exact ⟨hacc, Or.inl rfl, le_refl _, fun c hc => absurd hc (List.not_mem_nil c)⟩
  | cons b bs ih =>
    intro acc hacc
    simp only [List.foldl_cons]
    by_cases hb : score b > acc.2
    · rw [if_pos hb]
      obtain ⟨h1, h2, h3, h4⟩ := ih (b, score b) rfl
      refine ⟨h1, ?_, le_trans (le_of_lt hb) h3, ?_⟩
      · rcases h2 with h2 | h2
        · exact Or.inr (by rw [h2]; exact List.mem_cons_self b bs)
        · exact Or.inr (List.mem_cons_of_mem b h2)
      · intro c hc
        rcases List.mem_cons.mp hc with hc1 | hc1
        · rw [hc1]; exact h3
        · exact h4 c hc1
    · rw [if_neg hb]
      obtain ⟨h1, h2, h3, h4⟩ := ih acc hacc
      refine ⟨h1, ?_, h3, ?_⟩
      · rcases h2 with h2 | h2
        · exact Or.inl h2
        · exact Or.inr (List.mem_cons_of_mem b h2)
      · intro c hc
        rcases List.mem_cons.mp hc with hc1 | hc1
        · rw [hc1]; exact le_trans (not_lt.mp hb) h3
        · exact h4 c hc1

/-- The argmax loop returns an in-range class index whose score is the
(first-attained) maximum over all `C` class scores. -/
theorem best_class_fold_spec (score : ℕ → α) (C : ℕ) (hC : 1 ≤ C) :
    (best_class_fold score C).1 < C ∧
    (best_class_fold score C).2 = score (best_class_fold score C).1 ∧
    ∀ c < C, score c ≤ (best_class_fold score C).2 := by
  have h := fold_max_invariant score (List.range' 1 (C - 1)) (0, score 0) rfl
  obtain ⟨h1, h2, h3, h4⟩ := h
  unfold best_class_fold
  refine ⟨?_, h1, ?_⟩
  · rcases h2 with h2 | h2
    · rw [h2]; exact hC
    · have := List.mem_range'_1.mp h2
      omega
  · intro c hc
    cases c with
    | zero => exact h3
    | succ m =>
      refine h4 (m + 1) ?_
      rw [List.mem_range'_1]
      omega

theorem foldl_ite_append {β γ : Type} (p : β → Prop) [DecidablePred p]
    (h : β → γ) (l : List β) :
    ∀ acc : List γ,
      l.foldl (fun acc b => if p b then acc else acc ++ [h b]) acc =
        acc ++ l.filterMap (fun b => if p b then none else some (h b)) := by
  induction l with
  | nil => intro acc; simp
  | cons b bs ih =>
    intro acc
    simp only [List.foldl_cons, List.filterMap_cons]
    by_cases hb : p b
    · rw [if_pos hb, if_pos hb, ih]
    · rw [if_neg hb, if_neg hb, ih, List.append_assoc]
      rfl

/-- C1 (amended): the dispatcher-selected YOLOv11 decode reads, for each
of the `A` anchors of the channel-major `[1, 4+C, A]` head, the first
four channels as distances `[left, top, right, bottom]` from a fixed
640×640 anchor-grid point and the next `C` channels as raw class
scores to which sigmoid IS applied; an anchor is kept only if the
sigmoid of its best raw class score reaches the confidence threshold,
its box is `(ax − l, ay − t, ax + r, ay + b)`, and the shared NMS and
unletterboxing follow.  The second conjunct pins down the argmax loop:
it returns an in-range class attaining the maximum raw score. -/
theorem c1_yolov11_decodes_distances_with_sigmoid
    (data : ℕ → ℝ) (C A : ℕ) (hC : 1 ≤ C) (hA : A ≤ 8400)
    (ne zp : ℤ) (sc : ℚ) (b8 : Bool)
    (model_w model_h orig_w orig_h : ℤ) (conf_thresh nms_thresh : ℝ)
    (labels : List String) :
    yolov11 [data] [⟨ne, [1, 4 + (C : ℤ), (A : ℤ)], zp, sc, b8⟩]
        model_w model_h orig_w orig_h conf_thresh nms_thresh labels =
      scale_coords (nms ((List.range A).filterMap (fun i =>
        if sigmoid (best_class_fold (fun c => data ((4 + c) * A + i)) C).2 <
            conf_thresh then none
        else some
          { class_id :=
              ((best_class_fold (fun c => data ((4 + c) * A + i)) C).1 : ℤ)
            class_name :=
              if labels ≠ [] ∧
                  (best_class_fold (fun c => data ((4 + c) * A + i)) C).1 <
                    labels.length then
                labels.getD (best_class_fold (fun c => data ((4 + c) * A + i)) C).1 ""
              else ""
            confidence :=
              sigmoid (best_class_fold (fun c => data ((4 + c) * A + i)) C).2
            bbox := ⟨(anchor_point i).1 - data i,
                     (anchor_point i).2 - data (A + i),
                     (anchor_point i).1 + data (2 * A + i),
                     (anchor_point i).2 + data (3 * A + i)⟩ })) nms_thresh)
        model_w model_h orig_w orig_h ∧
    (∀ score : ℕ → ℝ,
      (best_class_fold score C).1 < C ∧
      (best_class_fold score C).2 = score (best_class_fold score C).1 ∧
      ∀ c < C, score c ≤ (best_class_fold score C).2) := by
  constructor
  · simp only [yolov11]
    rw [if_neg (by simp)]
    simp only [List.getD_cons_zero, List.getD_cons_succ]
    rw [if_neg (by simp)]
    have hcls : (4 + (C : ℤ) - 4) = (C : ℤ) := by ring
    simp only [hcls, Int.toNat_natCast]
    rw [if_neg (not_le.mpr (by exact_mod_cast hC : (0 : ℤ) < (C : ℤ)))]
    simp only [zero_mul, zero_add, one_mul]
    rw [foldl_ite_append]
    simp only [List.nil_append]
  · intro score
    exact best_class_fold_spec score C hC

theorem nms_singleton (d : Detection α) (t : α) : nms [d] t = [d] := by
  show nmsLoop t (sortDesc [d]) = [d]
  have hs : sortDesc [d] = [d] := rfl
  rw [hs, nmsLoop]
  show d :: nmsLoop t [] = [d]
  simp [nmsLoop]

/-- Synthetic YOLOv11 tensor for the C1 example: one anchor, one class,
zero box channels and a raw class score of 9/10 at flat offset 4. -/
noncomputable def data0 : ℕ → ℝ := fun n => if n = 4 then 9 / 10 else 0

theorem anchor_point_zero : (anchor_point 0 : ℝ × ℝ) = (4, 4) := by
  norm_num [anchor_point]

theorem best_class_fold_data0 :
    best_class_fold (fun c => data0 ((4 + c) * 1 + 0)) 1 = (0, 9 / 10) := by
  unfold best_class_fold
  norm_num [data0]

theorem yolov11_data0_eval :
    yolov11 [data0] [⟨5, [1, 4 + ((1 : ℕ) : ℤ), ((1 : ℕ) : ℤ)], 0, 1, false⟩]
        640 640 640 640 0 (45 / 100) [] =
      [⟨0, "", sigmoid (9 / 10), ⟨4, 4, 4, 4⟩⟩] := by
  have h := (c1_yolov11_decodes_distances_with_sigmoid data0 1 1 (le_refl 1)
    (by norm_num) 5 0 1 false 640 640 640 640 0 (45 / 100) []).1
  rw [h]
  have hrange : List.range 1 = [0] := rfl
  rw [hrange]
  have hbest := best_class_fold_data0
  have hg : (if sigmoid (best_class_fold (fun c => data0 ((4 + c) * 1 + 0)) 1).2 <
        (0 : ℝ) then none
      else some
        ({ class_id := ((best_class_fold (fun c => data0 ((4 + c) * 1 + 0)) 1).1 : ℤ)
           class_name :=
             if ([] : List String) ≠ [] ∧
                 (best_class_fold (fun c => data0 ((4 + c) * 1 + 0)) 1).1 <
                   ([] : List String).length then
               ([] : List String).getD
                 (best_class_fold (fun c => data0 ((4 + c) * 1 + 0)) 1).1 ""
             else ""
           confidence := sigmoid (best_class_fold (fun c => data0 ((4 + c) * 1 + 0)) 1).2
           bbox := ⟨(anchor_point 0).1 - data0 0,
                    (anchor_point 0).2 - data0 (1 + 0),
                    (anchor_point 0).1 + data0 (2 * 1 + 0),
                    (anchor_point 0).2 + data0 (3 * 1 + 0)⟩ } : Detection ℝ)) =
      some ⟨0, "", sigmoid (9 / 10), ⟨4, 4, 4, 4⟩⟩ := by
    rw [hbest]
    rw [if_neg (not_lt.mpr (le_of_lt (sigmoid_pos (9 / 10))))]
    rw [anchor_point_zero]
    norm_num [data0]
  rw [List.filterMap_cons]
  rw [hg]
  rw [show List.filterMap _ ([] : List ℕ) = ([] : List (Detection ℝ)) from rfl]
  rw [nms_singleton]
  simp only [scale_coords, List.map]
  norm_num [min_self]

theorem yolov11_as_claimed_data0_eval :
    yolov11_as_claimed [data0]
        [⟨5, [1, 4 + ((1 : ℕ) : ℤ), ((1 : ℕ) : ℤ)], 0, 1, false⟩]
        640 640 640 640 0 (45 / 100) [] =
      [⟨0, "", 9 / 10, ⟨0, 0, 0, 0⟩⟩] := by
  simp only [yolov11_as_claimed]
  rw [if_neg (by simp)]
  simp only [List.getD_cons_zero, List.getD_cons_succ]
  rw [if_neg (by simp)]
  have hcls : (4 + ((1 : ℕ) : ℤ) - 4) = ((1 : ℕ) : ℤ) := by ring
  simp only [hcls, Int.toNat_natCast]
  rw [if_neg (by norm_num)]
  have hrange : List.range 1 = [0] := rfl
  rw [hrange]
  simp only [List.foldl_cons, List.foldl_nil]
  rw [best_class_fold_data0]
  rw [if_neg (by norm_num : ¬ ((9 : ℝ) / 10 < 0))]
  have hvals : data0 (0 * 1 + 0) = 0 ∧ data0 (1 * 1 + 0) = 0 ∧
      data0 (2 * 1 + 0) = 0 ∧ data0 (3 * 1 + 0) = 0 := by
    norm_num [data0]
  obtain ⟨hv0, hv1, hv2, hv3⟩ := hvals
  rw [hv0, hv1, hv2, hv3]
  rw [List.nil_append, nms_singleton]
  simp only [scale_coords, List.map]
  norm_num [min_self]

/-- C1 counterexample: on a one-anchor one-class tensor with zero box
channels and raw class score 9/10, the source's `yolov11` (the only
variant, and the one the `process` dispatcher selects for "yolov11")
produces the box `(4,4,4,4)` with sigmoid-squashed confidence, whereas
the claim's decode (boxes already `[cx,cy,w,h]`, scores used raw with no
sigmoid) produces `(0,0,0,0)` with confidence 9/10: the claim
mis-describes the code on this input. -/
theorem c1_yolov11_variant_counterexample :
    yolov11 [data0] [⟨5, [1, 4 + ((1 : ℕ) : ℤ), ((1 : ℕ) : ℤ)], 0, 1, false⟩]
        640 640 640 640 0 (45 / 100) [] =
      [⟨0, "", sigmoid (9 / 10), ⟨4, 4, 4, 4⟩⟩] ∧
    yolov11_as_claimed [data0]
        [⟨5, [1, 4 + ((1 : ℕ) : ℤ), ((1 : ℕ) : ℤ)], 0, 1, false⟩]
        640 640 640 640 0 (45 / 100) [] =
      [⟨0, "", 9 / 10, ⟨0, 0, 0, 0⟩⟩] ∧
    yolov11 [data0] [⟨5, [1, 4 + ((1 : ℕ) : ℤ), ((1 : ℕ) : ℤ)], 0, 1, false⟩]
        640 640 640 640 0 (45 / 100) [] ≠
      yolov11_as_claimed [data0]
        [⟨5, [1, 4 + ((1 : ℕ) : ℤ), ((1 : ℕ) : ℤ)], 0, 1, false⟩]
        640 640 640 640 0 (45 / 100) [] := by
  refine ⟨yolov11_data0_eval, yolov11_as_claimed_data0_eval, ?_⟩
  rw [yolov11_data0_eval, yolov11_as_claimed_data0_eval]
  intro h
  have hx := congrArg (fun l : List (Detection ℝ) =>
    (l.getD 0 ⟨0, "", 0, ⟨0, 0, 0, 0⟩⟩).bbox.x1) h
  norm_num at hx

/-- Witness for C1 at the concrete one-anchor, one-class input. -/
theorem c1_yolov11_decodes_distances_with_sigmoid_witness :
    (1 ≤ 1 ∧ 1 ≤ 8400) ∧
    (yolov11 [data0] [⟨5, [1, 4 + ((1 : ℕ) : ℤ), ((1 : ℕ) : ℤ)], 0, 1, false⟩]
        640 640 640 640 0 (45 / 100) [] =
      scale_coords (nms ((List.range 1).filterMap (fun i =>
        if sigmoid (best_class_fold (fun c => data0 ((4 + c) * 1 + i)) 1).2 <
            (0 : ℝ) then none
        else some
          { class_id :=
              ((best_class_fold (fun c => data0 ((4 + c) * 1 + i)) 1).1 : ℤ)
            class_name :=
              if ([] : List String) ≠ [] ∧
                  (best_class_fold (fun c => data0 ((4 + c) * 1 + i)) 1).1 <
                    ([] : List String).length then
                ([] : List String).getD
                  (best_class_fold (fun c => data0 ((4 + c) * 1 + i)) 1).1 ""
              else ""
            confidence :=
              sigmoid (best_class_fold (fun c => data0 ((4 + c) * 1 + i)) 1).2
            bbox := ⟨(anchor_point i).1 - data0 i,
                     (anchor_point i).2 - data0 (1 + i),
                     (anchor_point i).1 + data0 (2 * 1 + i),
                     (anchor_point i).2 + data0 (3 * 1 + i)⟩ })) (45 / 100))
        640 640 640 640 ∧
      (∀ score : ℕ → ℝ,
        (best_class_fold score 1).1 < 1 ∧
        (best_class_fold score 1).2 = score (best_class_fold score 1).1 ∧
        ∀ c < 1, score c ≤ (best_class_fold score 1).2)) :=
  ⟨⟨le_refl 1, by norm_num⟩,
    c1_yolov11_decodes_distances_with_sigmoid data0 1 1 (le_refl 1)
      (by norm_num) 5 0 1 false 640 640 640 640 0 (45 / 100) []⟩

end InferServer
